import Mathlib

/-!
Verification of the schedule-extraction engine of `fetch_bins.py`.

The engine is embedded shallowly over `List Char`:

* `parse_date_string` models the Python function of the same name
  (lines 24-41): an ordered list of (strftime-format, regex) pairs is
  tried; the first regex that matches yields a candidate substring which
  is parsed strictly; on strict-parse failure the loop `continue`s with
  the next pair.
* `extract_bins_from_text` models the text-window part of
  `extract_bins_from_html` (lines 53-109): the function operates on the
  page text after BeautifulSoup rendering; line flattening (lines 53-55)
  is `normalizeText`, the per-category windowed search is lines 70-95,
  and the "next collection" global fallback is lines 97-107.

Regexes are embedded as deterministic matchers.  Each of the regexes in
the source (`\b\d{1,2}\s+[A-Za-z]+\s+\d{4}\b` and friends) has the
property that adjacent subpatterns draw from disjoint character classes,
so Python's backtracking search is equivalent to a greedy scan: each
quantified class consumes its maximal run, and a match attempt at a
given start position either succeeds with a unique extent or fails.
`re.search` is the leftmost such position.
-/

/-- Text is modelled as a list of characters. -/
abbrev Txt := List Char

/-- Coerce a string literal to `Txt`. -/
def txt (s : String) : Txt := s.data

/-- ASCII decimal digit (regex `\d` on our ASCII inputs). -/
def isDigitC (c : Char) : Bool := decide (48 ≤ c.toNat ∧ c.toNat ≤ 57)

/-- ASCII letter (regex `[A-Za-z]`). -/
def isAlphaC (c : Char) : Bool :=
  decide ((65 ≤ c.toNat ∧ c.toNat ≤ 90) ∨ (97 ≤ c.toNat ∧ c.toNat ≤ 122))

/-- Python regex `\s` restricted to ASCII: space, \t, \n, \r, \f, \v. -/
def isSpaceC (c : Char) : Bool :=
  decide (c.toNat = 32 ∨ c.toNat = 9 ∨ c.toNat = 10 ∨ c.toNat = 13 ∨
    c.toNat = 12 ∨ c.toNat = 11)

/-- Python regex word character `\w` on ASCII inputs: letter, digit or `_`. -/
def wordC (c : Char) : Bool := isAlphaC c || isDigitC c || c = '_'

/-- ASCII lower-casing, as `str.lower`/`re.IGNORECASE` act on our inputs. -/
def toLowerC (c : Char) : Char :=
  if 65 ≤ c.toNat ∧ c.toNat ≤ 90 then Char.ofNat (c.toNat + 32) else c

/-- Lower-case a text. -/
def lowerL (l : Txt) : Txt := l.map toLowerC

/-- Numeric value of a digit character. -/
def digitVal (c : Char) : Nat := c.toNat - 48

/-- The digit character for `n < 10`. -/
def digitChar (n : Nat) : Char := Char.ofNat (48 + n)

/-- Length of the maximal leading run of characters satisfying `p`
(the extent a greedy `p*` consumes). -/
def leadCount (p : Char → Bool) : Txt → Nat
  | [] => 0
  | c :: t => if p c then leadCount p t + 1 else 0

/-- Python slice `l[a:b]` (total: clamps to the ends). -/
def sliceT (l : Txt) (a b : Nat) : Txt := (l.drop a).take (b - a)

/-- Python `str.strip()` (whitespace strip at both ends). -/
def stripChars (l : Txt) : Txt :=
  ((l.dropWhile isSpaceC).reverse.dropWhile isSpaceC).reverse

/-- Whether `pat` occurs as a contiguous block inside `l`. -/
def containsSeq (pat : Txt) : Txt → Bool
  | [] => pat.isEmpty
  | c :: t => pat.isPrefixOf (c :: t) || containsSeq pat t

/-- Index of the last `'\n'` in `l`, if any
(Python `full_text.rfind("\n", 0, stop)` is `lastNlIdx (l.take stop)`,
with result `none` standing for Python's `-1`). -/
def lastNlIdx : Txt → Option Nat
  | [] => none
  | c :: t =>
    match lastNlIdx t with
    | some i => some (i + 1)
    | none => if c = '\n' then some 0 else none

/-- Index of the first `'\n'` at or after `from_` (Python
`full_text.find("\n", from_)`, `none` for `-1`). -/
def findNl (l : Txt) (from_ : Nat) : Option Nat :=
  (List.findIdx? (fun c => c = '\n') (l.drop from_)).map (· + from_)

/-- Decimal digit characters, fuel-based so that it evaluates inside
the kernel. -/
def decDigitsAux : Nat → Nat → Txt
  | 0, _ => []
  | fuel + 1, n =>
    if n < 10 then [digitChar n]
    else decDigitsAux fuel (n / 10) ++ [digitChar (n % 10)]

/-- Decimal digit characters of `n`, most significant first
(`str(n)` for a nonnegative int). -/
def decDigits (n : Nat) : Txt := decDigitsAux (n + 1) n

/-- Numeric value of a digit string read left to right. -/
def parseDigitsNat (l : Txt) : Nat := l.foldl (fun a c => 10 * a + digitVal c) 0

/-! ### Month-name tables

`fullMonthsLower`/`abbrevMonthsLower` are the (lower-cased) tables of the
C locale that CPython's `_strptime` matches `%B`/`%b` against;
`rxMonthsExact` is the exact alternation written in `date_rx`
(line 68 of the source), in its alternation order. -/

def fullMonthsLower : List Txt :=
  [txt "january", txt "february", txt "march", txt "april", txt "may",
   txt "june", txt "july", txt "august", txt "september", txt "october",
   txt "november", txt "december"]

def abbrevMonthsLower : List Txt :=
  [txt "jan", txt "feb", txt "mar", txt "apr", txt "may", txt "jun",
   txt "jul", txt "aug", txt "sep", txt "oct", txt "nov", txt "dec"]

def rxMonthsExact : List Txt :=
  [txt "Jan", txt "Feb", txt "Mar", txt "Apr", txt "May", txt "Jun",
   txt "Jul", txt "Aug", txt "Sep", txt "Oct", txt "Nov", txt "Dec",
   txt "January", txt "February", txt "March", txt "April", txt "May",
   txt "June", txt "July", txt "August", txt "September", txt "October",
   txt "November", txt "December"]

/-- The lower-cased month alternation of `date_rx`. -/
def rxMonthsLower : List Txt := rxMonthsExact.map lowerL

/-- Display form of full month names, as written in page text. -/
def monthFullName (m : Nat) : Txt :=
  match m with
  | 1 => txt "January" | 2 => txt "February" | 3 => txt "March"
  | 4 => txt "April" | 5 => txt "May" | 6 => txt "June"
  | 7 => txt "July" | 8 => txt "August" | 9 => txt "September"
  | 10 => txt "October" | 11 => txt "November" | 12 => txt "December"
  | _ => []

/-- Display form of abbreviated month names. -/
def monthAbbrevName (m : Nat) : Txt :=
  match m with
  | 1 => txt "Jan" | 2 => txt "Feb" | 3 => txt "Mar"
  | 4 => txt "Apr" | 5 => txt "May" | 6 => txt "Jun"
  | 7 => txt "Jul" | 8 => txt "Aug" | 9 => txt "Sep"
  | 10 => txt "Oct" | 11 => txt "Nov" | 12 => txt "Dec"
  | _ => []

/-- Look up a word in a month table; months are numbered from 1. -/
def lookupMonthAux : List Txt → Txt → Nat → Option Nat
  | [], _, _ => none
  | n :: ns, w, i => if w = n then some i else lookupMonthAux ns w (i + 1)

def lookupMonth (names : List Txt) (w : Txt) : Option Nat :=
  lookupMonthAux names w 1

/-! ### Calendar validation (`datetime(year, month, day)`) -/

def isLeap (y : Nat) : Bool := decide (y % 4 = 0 ∧ (y % 100 ≠ 0 ∨ y % 400 = 0))

def daysInMonth (y m : Nat) : Nat :=
  match m with
  | 1 => 31 | 2 => if isLeap y then 29 else 28 | 3 => 31 | 4 => 30
  | 5 => 31 | 6 => 30 | 7 => 31 | 8 => 31 | 9 => 30 | 10 => 31
  | 11 => 30 | 12 => 31
  | _ => 0

/-- The validity check performed by the `datetime` constructor. -/
def ValidYmd (y m d : Nat) : Prop :=
  1 ≤ y ∧ y ≤ 9999 ∧ 1 ≤ m ∧ m ≤ 12 ∧ 1 ≤ d ∧ d ≤ daysInMonth y m

instance (y m d : Nat) : Decidable (ValidYmd y m d) := by
  unfold ValidYmd; infer_instance

/-- Zero-pad to two digits (`strftime` `%m`/`%d`). -/
def pad2 (n : Nat) : Txt := if n < 10 then '0' :: decDigits n else decDigits n

/-- Zero-pad to four digits (`strftime` `%Y` per the Python docs). -/
def pad4 (n : Nat) : Txt :=
  List.replicate (4 - (decDigits n).length) '0' ++ decDigits n

/-- `dt.strftime("%Y-%m-%d")`. -/
def canonicalDate (y m d : Nat) : Txt := pad4 y ++ '-' :: pad2 m ++ '-' :: pad2 d

/-! ### Strict parsing (`datetime.strptime`)

CPython's `_strptime` compiles a format into an anchored regex over the
lower-cased data string and requires the whole string to be consumed.
`%d` is `3[01]|[12]\d|0[1-9]|[1-9]`, `%m` is `1[0-2]|0[1-9]|[1-9]`,
`%Y` is `\d\d\d\d`, whitespace in the format becomes `\s+`, and `%B`/`%b`
is an alternation of the month names.  Because in the formats of the
source every component is followed by a character from a disjoint class,
each component must consume exactly the maximal run at its position, so
the whole match is the deterministic scan embedded below.  On success
the `datetime` constructor additionally validates the calendar date. -/

/-- The `%d` day component: accepts a 1-digit run with value 1-9 or a
2-digit run with value 1-31 (so "00" and "32" fail, as `%d` does). -/
def dayRunOk (len v : Nat) : Prop :=
  (len = 1 ∧ 1 ≤ v) ∨ (len = 2 ∧ 1 ≤ v ∧ v ≤ 31)

instance (len v : Nat) : Decidable (dayRunOk len v) := by
  unfold dayRunOk; infer_instance

/-- The `%m` month component: 1-digit 1-9 or 2-digit 01-12. -/
def monthRunOk (len v : Nat) : Prop :=
  (len = 1 ∧ 1 ≤ v) ∨ (len = 2 ∧ 1 ≤ v ∧ v ≤ 12)

instance (len v : Nat) : Decidable (monthRunOk len v) := by
  unfold monthRunOk; infer_instance

/-- `datetime.strptime(t, "%d <name> %Y")` for a month-name table, plus
the `datetime` constructor's validation; returns `(y, m, d)`. -/
def strptimeName (names : List Txt) (t : Txt) : Option (Nat × Nat × Nat) :=
  let r := leadCount isDigitC t
  let d := parseDigitsNat (t.take r)
  if dayRunOk r d then
    let t1 := t.drop r
    let w := leadCount isSpaceC t1
    if w = 0 then none else
    let t2 := t1.drop w
    let a := leadCount isAlphaC t2
    match lookupMonth names (lowerL (t2.take a)) with
    | none => none
    | some m =>
      let t3 := t2.drop a
      let w2 := leadCount isSpaceC t3
      if w2 = 0 then none else
      let t4 := t3.drop w2
      if leadCount isDigitC t4 = 4 ∧ t4.length = 4 then
        let y := parseDigitsNat t4
        if 1 ≤ y ∧ y ≤ 9999 ∧ 1 ≤ d ∧ d ≤ daysInMonth y m
        then some (y, m, d) else none
      else none
  else none

/-- `datetime.strptime(t, "%d<sep>%m<sep>%Y")` plus validation. -/
def strptimeSep (sep : Char) (t : Txt) : Option (Nat × Nat × Nat) :=
  let r := leadCount isDigitC t
  let d := parseDigitsNat (t.take r)
  if dayRunOk r d then
    let t1 := t.drop r
    match t1 with
    | [] => none
    | c1 :: t2 =>
      if c1 = sep then
        let r2 := leadCount isDigitC t2
        let m := parseDigitsNat (t2.take r2)
        if monthRunOk r2 m then
          let t3 := t2.drop r2
          match t3 with
          | [] => none
          | c2 :: t4 =>
            if c2 = sep then
              if leadCount isDigitC t4 = 4 ∧ t4.length = 4 then
                let y := parseDigitsNat t4
                if 1 ≤ y ∧ y ≤ 9999 ∧ 1 ≤ d ∧ d ≤ daysInMonth y m
                then some (y, m, d) else none
              else none
            else none
        else none
      else none
  else none

/-! ### The four format regexes of `parse_date_string`

Each matcher takes the character preceding the current position (for
`\b`) and the suffix starting there, and returns the match length. -/

/-- Start-of-match `\b`: all four patterns begin with `\d`, so the
boundary holds iff the preceding character is absent or a non-word. -/
def atBoundary (prev : Option Char) : Bool :=
  match prev with
  | none => true
  | some c => !wordC c

/-- End-of-match `\b` after `\d{4}`: the next character is absent or a
non-word. -/
def endBoundary : Txt → Bool
  | [] => true
  | c :: _ => !wordC c

/-- `\b\d{1,2}\s+[A-Za-z]+\s+\d{4}\b` at the current position. -/
def p1Here (prev : Option Char) (l : Txt) : Option Nat :=
  if !atBoundary prev then none else
  let r := leadCount isDigitC l
  if ¬(r = 1 ∨ r = 2) then none else
  let l1 := l.drop r
  let w := leadCount isSpaceC l1
  if w = 0 then none else
  let l2 := l1.drop w
  let a := leadCount isAlphaC l2
  if a = 0 then none else
  let l3 := l2.drop a
  let w2 := leadCount isSpaceC l3
  if w2 = 0 then none else
  let l4 := l3.drop w2
  if leadCount isDigitC l4 = 4 ∧ endBoundary (l4.drop 4) then
    some (r + w + a + w2 + 4)
  else none

/-- `\b\d{1,2}\s+[A-Za-z]{3}\s+\d{4}\b` at the current position. -/
def p2Here (prev : Option Char) (l : Txt) : Option Nat :=
  if !atBoundary prev then none else
  let r := leadCount isDigitC l
  if ¬(r = 1 ∨ r = 2) then none else
  let l1 := l.drop r
  let w := leadCount isSpaceC l1
  if w = 0 then none else
  let l2 := l1.drop w
  let a := leadCount isAlphaC l2
  if a ≠ 3 then none else
  let l3 := l2.drop a
  let w2 := leadCount isSpaceC l3
  if w2 = 0 then none else
  let l4 := l3.drop w2
  if leadCount isDigitC l4 = 4 ∧ endBoundary (l4.drop 4) then
    some (r + w + 3 + w2 + 4)
  else none

/-- `\b\d{1,2}<sep>\d{1,2}<sep>\d{4}\b` at the current position
(`sep` is `/` for pattern 3 and `-` for pattern 4). -/
def sepHere (sep : Char) (prev : Option Char) (l : Txt) : Option Nat :=
  if !atBoundary prev then none else
  let r := leadCount isDigitC l
  if ¬(r = 1 ∨ r = 2) then none else
  match l.drop r with
  | [] => none
  | c1 :: t2 =>
    if c1 ≠ sep then none else
    let r2 := leadCount isDigitC t2
    if ¬(r2 = 1 ∨ r2 = 2) then none else
    match t2.drop r2 with
    | [] => none
    | c2 :: t4 =>
      if c2 ≠ sep then none else
      if leadCount isDigitC t4 = 4 ∧ endBoundary (t4.drop 4) then
        some (r + 1 + r2 + 1 + 4)
      else none

/-- `re.search` for a matcher: scan positions left to right, return the
matched text of the leftmost match. -/
def searchRx (here : Option Char → Txt → Option Nat) :
    Option Char → Txt → Option Txt
  | prev, [] =>
    match here prev [] with
    | some n => some (([] : Txt).take n)
    | none => none
  | prev, c :: t =>
    match here prev (c :: t) with
    | some n => some ((c :: t).take n)
    | none => searchRx here (some c) t

/-- The four `(format, regex)` pairs of `parse_date_string`, in order. -/
inductive FmtId | dBY | dbY | dmYslash | dmYdash
deriving DecidableEq

/-- The regex component of a pattern pair, as a search for the leftmost
match. -/
def fmtSearch (f : FmtId) (s : Txt) : Option Txt :=
  match f with
  | .dBY => searchRx p1Here none s
  | .dbY => searchRx p2Here none s
  | .dmYslash => searchRx (sepHere '/') none s
  | .dmYdash => searchRx (sepHere '-') none s

/-- The strict-parse component (`datetime.strptime`) of a pattern pair. -/
def fmtParse (f : FmtId) (g : Txt) : Option (Nat × Nat × Nat) :=
  match f with
  | .dBY => strptimeName fullMonthsLower g
  | .dbY => strptimeName abbrevMonthsLower g
  | .dmYslash => strptimeSep '/' g
  | .dmYdash => strptimeSep '-' g

/-- The pattern list of the source, in declared order. -/
def patternList : List FmtId := [.dBY, .dbY, .dmYslash, .dmYdash]

/-- The `for fmt, rx in patterns` loop: `re.search`, then `strptime`;
an exception (`None` here) falls through to the next pattern. -/
def tryFormats : List FmtId → Txt → Option Txt
  | [], _ => none
  | f :: fs, s =>
    match fmtSearch f s with
    | none => tryFormats fs s
    | some g =>
      match fmtParse f g with
      | some ymd => some (canonicalDate ymd.1 ymd.2.1 ymd.2.2)
      | none => tryFormats fs s

/-- `parse_date_string` (source lines 24-41). -/
def parse_date_string (s : Txt) : Option Txt :=
  tryFormats patternList (stripChars s)

/-! ### `date_rx` (source line 68)

`\b(?:\d{1,2}\s+(?:Jan|...|December)\s+\d{4}|\d{1,2}/\d{1,2}/\d{4})\b`.
The per-category search (line 77) compiles it with `re.IGNORECASE`; the
global-fallback search (line 101) compiles it without flags, so there
month names must match with their exact capitalisation. -/

/-- Does the alternation of `date_rx` accept this month word?  `ic` is
whether the regex was compiled with `re.IGNORECASE`. -/
def rxMonthWordOk (ic : Bool) (w : Txt) : Bool :=
  if ic then decide (lowerL w ∈ rxMonthsLower) else decide (w ∈ rxMonthsExact)

/-- The first alternative of `date_rx`:
`\d{1,2}\s+(month)\s+\d{4}` followed by `\b`. -/
def dateNameBranch (ic : Bool) (l : Txt) : Option Nat :=
  let r := leadCount isDigitC l
  if ¬(r = 1 ∨ r = 2) then none else
  let l1 := l.drop r
  let w := leadCount isSpaceC l1
  if w = 0 then none else
  let l2 := l1.drop w
  let a := leadCount isAlphaC l2
  if ¬rxMonthWordOk ic (l2.take a) then none else
  let l3 := l2.drop a
  let w2 := leadCount isSpaceC l3
  if w2 = 0 then none else
  let l4 := l3.drop w2
  if leadCount isDigitC l4 = 4 ∧ endBoundary (l4.drop 4) then
    some (r + w + a + w2 + 4)
  else none

/-- The second alternative of `date_rx`: `\d{1,2}/\d{1,2}/\d{4}`
followed by `\b`. -/
def dateSlashBranch (l : Txt) : Option Nat :=
  let r := leadCount isDigitC l
  if ¬(r = 1 ∨ r = 2) then none else
  match l.drop r with
  | [] => none
  | c1 :: t2 =>
    if c1 ≠ '/' then none else
    let r2 := leadCount isDigitC t2
    if ¬(r2 = 1 ∨ r2 = 2) then none else
    match t2.drop r2 with
    | [] => none
    | c2 :: t4 =>
      if c2 ≠ '/' then none else
      if leadCount isDigitC t4 = 4 ∧ endBoundary (t4.drop 4) then
        some (r + 1 + r2 + 1 + 4)
      else none

/-- `date_rx` at the current position: the name alternative is tried
before the slash alternative. -/
def dateHere (ic : Bool) (prev : Option Char) (l : Txt) : Option Nat :=
  if !atBoundary prev then none else
  match dateNameBranch ic l with
  | some n => some n
  | none => dateSlashBranch l

/-- `re.search(date_rx, w, ...)`: text of the leftmost match. -/
def dateSearch (ic : Bool) (w : Txt) : Option Txt := searchRx (dateHere ic) none w

/-! ### The text-window extractor (`extract_bins_from_html`, lines 53-109) -/

/-- Case-insensitive non-overlapping occurrences of a literal alias
(`re.finditer(re.escape(alias), full_text, flags=re.IGNORECASE)`),
as `(start, end)` index pairs.  Matching compares lower-cased texts. -/
def occsAux (alLow : Txt) : Nat → Nat → Txt → List (Nat × Nat)
  | 0, _, _ => []
  | fuel + 1, i, l =>
    if alLow.isPrefixOf l then
      (i, i + alLow.length) :: occsAux alLow fuel (i + alLow.length) (l.drop alLow.length)
    else
      match l with
      | [] => []
      | _ :: t => occsAux alLow fuel (i + 1) t

def aliasOccs (al : Txt) (text : Txt) : List (Nat × Nat) :=
  if al = [] then (List.range (text.length + 1)).map (fun i => (i, i))
  else occsAux (lowerL al) (text.length + 1) 0 (lowerL text)

/-- The primary 120-character-radius window around an occurrence
(lines 74-76): `full_text[max(0, start-120):min(len, end+120)]`. -/
def primaryWindow (text : Txt) (o : Nat × Nat) : Txt :=
  sliceT text (o.1 - 120) (min text.length (o.2 + 120))

/-- Bounds of the wider "lines" window (line 86):
`full_text[max(0, rfind("\n",0,start)-200) : min(len, find("\n",end)+200)]`.
Note Python's `find`/`rfind` return `-1` when there is no newline, so
with no newline before the start bound is `0`, and with no newline
after the end bound is `min(len, -1+200) = min(len, 199)`. -/
def linesWindowBounds (text : Txt) (o : Nat × Nat) : Nat × Nat :=
  (match lastNlIdx (text.take o.1) with
   | some i => i - 200
   | none => 0,
   match findNl text o.2 with
   | some j => min text.length (j + 200)
   | none => min text.length 199)

def linesWindow (text : Txt) (o : Nat × Nat) : Txt :=
  sliceT text (linesWindowBounds text o).1 (linesWindowBounds text o).2

/-- The fallback search in the wider window (lines 86-93). -/
def linesTry (text : Txt) (o : Nat × Nat) : Option Txt :=
  match dateSearch true (linesWindow text o) with
  | some g => parse_date_string g
  | none => none

/-- One iteration of the occurrence loop (lines 73-93): search the
primary window; if its first date-like substring normalizes, take it,
otherwise fall through to the wider lines window. -/
def occTry (text : Txt) (o : Nat × Nat) : Option Txt :=
  match dateSearch true (primaryWindow text o) with
  | some g =>
    match parse_date_string g with
    | some p => some p
    | none => linesTry text o
  | none => linesTry text o

/-- The occurrence loop: `found[key]` is the state; a successful
normalization assigns and `break`s. -/
def occLoop (text : Txt) : Option Txt → List (Nat × Nat) → Option Txt
  | st, [] => st
  | st, o :: os =>
    match occTry text o with
    | some d => some d
    | none => occLoop text st os

/-- The alias loop with the `if found[key]: break` check (lines 94-95). -/
def aliasLoop (text : Txt) : Option Txt → List Txt → Option Txt
  | st, [] => st
  | st, a :: rest =>
    let st2 := occLoop text st (aliasOccs a text)
    if st2.isSome then st2 else aliasLoop text st2 rest

/-- A category's windowed search over its ordered alias list. -/
def catFromAliases (text : Txt) (aliases : List Txt) : Option Txt :=
  aliasLoop text none aliases

/-- The alias table of the source (lines 58-62), in declared order. -/
def generalAliases : List Txt :=
  [txt "general", txt "black", txt "refuse", txt "household",
   txt "black bin", txt "refuse collection"]

def recyclingAliases : List Txt := [txt "recycling", txt "green", txt "green bin"]

def glassAliases : List Txt :=
  [txt "glass", txt "glass box", txt "glass bin", txt "black box"]

/-! ### The global "next collection" fallback (lines 97-107) -/

/-- One attempt of the phrase regex
`(next collection|next collections|Next collection|Next collections|collection date|collection dates).{0,120}`
(compiled with `re.IGNORECASE`) at the current position.  Under
IGNORECASE the alternation reduces to the two 15-character stems
`next collection` and `collection date` (each later alternative has one
of these as a prefix, and the trailing `.{0,120}` always succeeds, so a
later alternative is never reached).  `.` does not match a newline, and
greedily extends up to 120 characters. -/
def phraseHereLen (l : Txt) : Option Nat :=
  let stem := lowerL (l.take 15)
  if stem = txt "next collection" ∨ stem = txt "collection date" then
    some (15 + min 120 (leadCount (fun c => c ≠ '\n') (l.drop 15)))
  else none

/-- `re.finditer` for the phrase regex: leftmost, non-overlapping;
scanning resumes after the consumed `.{0,120}` tail. -/
def phraseScan : Nat → Nat → Txt → List (Nat × Nat)
  | 0, _, _ => []
  | fuel + 1, i, l =>
    match phraseHereLen l with
    | some n => (i, i + n) :: phraseScan fuel (i + n) (l.drop n)
    | none =>
      match l with
      | [] => []
      | _ :: t => phraseScan fuel (i + 1) t

def phraseMatches (text : Txt) : List (Nat × Nat) :=
  phraseScan (text.length + 1) 0 text

/-- The fallback loop body (lines 100-107): for each phrase match, search
`date_rx` (case-sensitively) in the matched span; if the result
normalizes, `found["general"] = found["general"] or parsed`. -/
def fallbackFold (st : Option Txt) (text : Txt) : Option Txt :=
  (phraseMatches text).foldl
    (fun acc pr =>
      match dateSearch false (sliceT text pr.1 pr.2) with
      | none => acc
      | some g =>
        match parse_date_string g with
        | none => acc
        | some p => acc.orElse (fun _ => some p))
    st

/-- The result record: one slot per configured category. -/
structure BinsFound where
  general : Option Txt
  recycling : Option Txt
  glass : Option Txt
deriving DecidableEq, Repr

/-- `extract_bins_from_html` from the flattened `full_text` on
(lines 57-109): per-category windowed search, then the global fallback
guarded by `if not any(found.values())`. -/
def extractCore (text : Txt) : BinsFound :=
  let g := catFromAliases text generalAliases
  let r := catFromAliases text recyclingAliases
  let gl := catFromAliases text glassAliases
  if g.isSome || r.isSome || gl.isSome then ⟨g, r, gl⟩
  else ⟨fallbackFold g text, r, gl⟩

/-- Line flattening (lines 53-55): split, strip each line, drop empty
lines, re-join with single newlines. -/
def splitOnNl : Txt → List Txt
  | [] => [[]]
  | c :: t =>
    let rest := splitOnNl t
    if c = '\n' then [] :: rest
    else (c :: rest.headD []) :: rest.tail

def joinNl : List Txt → Txt
  | [] => []
  | [l] => l
  | l :: ls => l ++ '\n' :: joinNl ls

def normalizeText (l : Txt) : Txt :=
  joinNl (((splitOnNl l).map stripChars).filter (fun s => ¬s.isEmpty))

/-- The whole text path of `extract_bins_from_html`, from the rendered
page text. -/
def extract_bins_from_text (input : Txt) : BinsFound :=
  extractCore (normalizeText input)

/-! ### Derived notions used to state the claims -/

/-- All positions (as `(start, end)` pairs, offset by `i`) at which a
matcher succeeds; `searchRx` returns the text of the head of this list. -/
def allMatchesAux (here : Option Char → Txt → Option Nat) :
    Nat → Option Char → Txt → List (Nat × Nat)
  | i, prev, [] =>
    (match here prev [] with
     | some n => [(i, i + n)]
     | none => [])
  | i, prev, c :: t =>
    (match here prev (c :: t) with
     | some n => [(i, i + n)]
     | none => []) ++
    allMatchesAux here (i + 1) (some c) t

/-- All `date_rx` match positions inside a window. -/
def allDateMatches (ic : Bool) (w : Txt) : List (Nat × Nat) :=
  allMatchesAux (dateHere ic) 0 none w

/-- Character distance between two spans (0 when they overlap). -/
def distTo (occ p : Nat × Nat) : Nat :=
  if p.2 ≤ occ.1 then occ.1 - p.2 else if occ.2 ≤ p.1 then p.1 - occ.2 else 0

/-- First element minimizing `f` (ties keep the earlier element). -/
def argminBy (f : α → Nat) (l : List α) : Option α :=
  l.foldl
    (fun acc x =>
      match acc with
      | none => some x
      | some y => if f x < f y then some x else acc)
    none

/-- Modelled from the spec: "the nearest date-like substring to the
alias occurrence within the searched window".  `base` is the window's
start offset inside the full text, `occ` the occurrence's span there. -/
def specNearestDateMatch (ic : Bool) (w : Txt) (base : Nat) (occ : Nat × Nat) :
    Option Txt :=
  (argminBy (fun p => distTo occ (base + p.1, base + p.2)) (allDateMatches ic w)).map
    (fun p => sliceT w p.1 p.2)

/-- Modelled from the spec: the end bound of the wider window per the
claim's words, "the nearest newline after the occurrence plus 200
characters, clamped to the text bounds" (no following newline thus
meaning the end of the text). -/
def specWiderEnd (text : Txt) (occEnd : Nat) : Nat :=
  match findNl text occEnd with
  | some j => min text.length (j + 200)
  | none => text.length

/-- The parsed date an occurrence's primary window would contribute. -/
def primaryCand (text : Txt) (o : Nat × Nat) : Option Txt :=
  (dateSearch true (primaryWindow text o)).bind parse_date_string

/-- The parsed date an occurrence's wider lines window would contribute. -/
def linesCand (text : Txt) (o : Nat × Nat) : Option Txt :=
  (dateSearch true (linesWindow text o)).bind parse_date_string

/-- All successful normalizations for a category, in the order in which
the source's loops attempt them: aliases in declared order, occurrences
left to right, the primary window before the wider window. -/
def catCandidates (text : Txt) (aliases : List Txt) : List Txt :=
  aliases.flatMap fun a =>
    (aliasOccs a text).flatMap fun o =>
      ([primaryCand text o, linesCand text o]).filterMap id

/-- Whether some alias of the list occurs in the text. -/
def mentioned (text : Txt) (aliases : List Txt) : Bool :=
  aliases.any fun a => !(aliasOccs a text).isEmpty

/-- A day or month written with one or two digits (`pad` selects the
zero-padded two-digit form for values below 10). -/
def numChars (pad : Bool) (n : Nat) : Txt :=
  if pad ∧ n < 10 then '0' :: decDigits n else decDigits n

/-- A date written as day, month name, four-digit year. -/
def renderNameFmt (pad : Bool) (d : Nat) (name : Txt) (y : Nat) : Txt :=
  numChars pad d ++ ' ' :: (name ++ ' ' :: decDigits y)

/-- A date written as day, separator, month, separator, four-digit year. -/
def renderSepFmt (sep : Char) (pd pm : Bool) (d m y : Nat) : Txt :=
  numChars pd d ++ sep :: (numChars pm m ++ sep :: decDigits y)

set_option maxRecDepth 400000

/-! ### Basic lemmas -/

theorem filterMapPair_head (a b : Option Txt) :
    (([a, b]).filterMap id).head? = a.orElse (fun _ => b) := by
  cases a <;> cases b <;> rfl

theorem headQ_append (xs ys : List Txt) :
    (xs ++ ys).head? = xs.head?.orElse (fun _ => ys.head?) := by
  cases xs <;> rfl

theorem linesTry_eq (text : Txt) (o : Nat × Nat) :
    linesTry text o = linesCand text o := by
  unfold linesTry linesCand
  cases dateSearch true (linesWindow text o) <;> rfl

theorem occTry_eq (text : Txt) (o : Nat × Nat) :
    occTry text o = (primaryCand text o).orElse (fun _ => linesCand text o) := by
  unfold occTry primaryCand
  cases h : dateSearch true (primaryWindow text o) with
  | none => simp [linesTry_eq, Option.orElse]
  | some g =>
    simp only [Option.bind]
    cases parse_date_string g <;> simp [linesTry_eq, Option.orElse]

theorem occLoop_eq_head (text : Txt) (os : List (Nat × Nat)) :
    occLoop text none os =
      (os.flatMap fun o => ([primaryCand text o, linesCand text o]).filterMap id).head? := by
  induction os with
  | nil => rfl
  | cons o os ih =>
    rw [List.flatMap_cons, headQ_append, filterMapPair_head, ← occTry_eq]
    show (match occTry text o with
          | some d => some d
          | none => occLoop text none os) = _
    cases h : occTry text o <;> simp [h, Option.orElse, ih]

theorem catFromAliases_eq_head (text : Txt) (aliases : List Txt) :
    catFromAliases text aliases = (catCandidates text aliases).head? := by
  unfold catFromAliases
  induction aliases with
  | nil => rfl
  | cons a rest ih =>
    show (let st2 := occLoop text none (aliasOccs a text)
          if st2.isSome then st2 else aliasLoop text st2 rest) = _
    rw [catCandidates, List.flatMap_cons, headQ_append, ← catCandidates]
    rw [occLoop_eq_head text (aliasOccs a text)]
    cases h : (aliasOccs a text).flatMap
        (fun o => ([primaryCand text o, linesCand text o]).filterMap id) with
    | nil => simpa [h, Option.orElse] using ih
    | cons x xs => simp [h, Option.orElse]

/-! ### Claim C1 -/

/-- C1: the claim states that once a pattern's shape matches, a strict
parse failure under that format is not retried under a later format.
This is false for the code: `"14 Feb 2025"` structurally matches the
first pattern (`%d %B %Y`), fails its strict parse, and is nevertheless
normalized successfully (by the second pattern), rather than given up on. -/
theorem C1_counterexample :
    fmtSearch .dBY (stripChars (txt "14 Feb 2025")) = some (txt "14 Feb 2025") ∧
    fmtParse .dBY (txt "14 Feb 2025") = none ∧
    parse_date_string (txt "14 Feb 2025") = some (txt "2025-02-14") :=
  ⟨by decide, by decide, by decide⟩

/-- C1 (amended): when a substring's shape matches a format's pattern
but fails strict parsing under that format, `parse_date_string` falls
through and retries the remaining formats in order (the `except:
continue` of lines 39-40); it gives up only when every format has been
tried. -/
theorem C1_amended (f : FmtId) (rest : List FmtId) (t g : Txt)
    (hs : fmtSearch f t = some g) (hp : fmtParse f g = none) :
    tryFormats (f :: rest) t = tryFormats rest t ∧
    parse_date_string t = tryFormats patternList (stripChars t) := by
  constructor
  · simp [tryFormats, hs, hp]
  · rfl

/-- Witness for C1_amended at the counterexample input. -/
theorem C1_amended_witness :
    tryFormats [FmtId.dBY, FmtId.dbY, FmtId.dmYslash, FmtId.dmYdash]
        (txt "14 Feb 2025")
      = tryFormats [FmtId.dbY, FmtId.dmYslash, FmtId.dmYdash] (txt "14 Feb 2025") :=
  (C1_amended .dBY _ (txt "14 Feb 2025") (txt "14 Feb 2025")
    (by decide) (by decide)).1

/-! ### Claim C7 -/

theorem tryFormats_eq_none_iff (fs : List FmtId) (t : Txt) :
    tryFormats fs t = none ↔
      ∀ f ∈ fs, ∀ g, fmtSearch f t = some g → fmtParse f g = none := by
  induction fs with
  | nil => simp [tryFormats]
  | cons f fs ih =>
    show (match fmtSearch f t with
          | none => tryFormats fs t
          | some g =>
            match fmtParse f g with
            | some ymd => some (canonicalDate ymd.1 ymd.2.1 ymd.2.2)
            | none => tryFormats fs t) = none ↔ _
    cases hs : fmtSearch f t with
    | none =>
      simp only [List.mem_cons, ih]
      constructor
      · rintro h f' (rfl | hf') g hg
        · rw [hs] at hg; cases hg
        · exact h f' hf' g hg
      · intro h f' hf' g hg; exact h f' (Or.inr hf') g hg
    | some g0 =>
      show (match fmtParse f g0 with
            | some ymd => some (canonicalDate ymd.1 ymd.2.1 ymd.2.2)
            | none => tryFormats fs t) = none ↔ _
      cases hp : fmtParse f g0 with
      | some ymd =>
        simp only [List.mem_cons]
        constructor
        · intro h; cases h
        · intro h
          have := h f (Or.inl rfl) g0 hs
          rw [hp] at this; cases this
      | none =>
        simp only [List.mem_cons, ih]
        constructor
        · rintro h f' (rfl | hf') g hg
          · rw [hs] at hg; injection hg with e; rw [← e]; exact hp
          · exact h f' hf' g hg
        · intro h f' hf' g hg; exact h f' (Or.inr hf') g hg

/-- C7: `parse_date_string` returns `none` exactly when, for every
accepted format, either its pattern finds no match in the stripped
input or the matched candidate fails strict parsing/calendar validation
(the `except Exception: continue` of lines 39-40 turns every such
failure into a silent skip; the function is total and never raises). -/
theorem C7_no_match_iff (s : Txt) :
    parse_date_string s = none ↔
      ∀ f ∈ patternList, ∀ g,
        fmtSearch f (stripChars s) = some g → fmtParse f g = none :=
  tryFormats_eq_none_iff patternList (stripChars s)

/-- Witness for C7 at `"31/02/2025"`: the slash pattern matches but
February 31 fails calendar validation, so the result is `none`. -/
theorem C7_witness : parse_date_string (txt "31/02/2025") = none := by
  refine (C7_no_match_iff (txt "31/02/2025")).mpr ?_
  intro f hf g hg
  fin_cases hf
  · rw [show fmtSearch .dBY (stripChars (txt "31/02/2025")) = none by decide] at hg
    cases hg
  · rw [show fmtSearch .dbY (stripChars (txt "31/02/2025")) = none by decide] at hg
    cases hg
  · rw [show fmtSearch .dmYslash (stripChars (txt "31/02/2025"))
        = some (txt "31/02/2025") by decide] at hg
    injection hg with e; rw [← e]; decide
  · rw [show fmtSearch .dmYdash (stripChars (txt "31/02/2025")) = none by decide] at hg
    cases hg

/-! ### Claim C3 -/

/-- C3: first successful match per category wins.  For every input text
and every alias configuration, the category's result is the head of the
list of all successful normalizations in attempt order, so once a date
is found no later occurrence or alias changes it; and the global
fallback never changes `recycling`/`glass`, nor `general` once set. -/
theorem C3_first_match_wins (text : Txt) :
    (∀ aliases : List Txt,
      catFromAliases text aliases = (catCandidates text aliases).head?) ∧
    (extractCore text).recycling = catFromAliases text recyclingAliases ∧
    (extractCore text).glass = catFromAliases text glassAliases ∧
    (∀ d : Txt, catFromAliases text generalAliases = some d →
      (extractCore text).general = some d) := by
  refine ⟨fun aliases => catFromAliases_eq_head text aliases, ?_, ?_, ?_⟩ <;>
    unfold extractCore
  · cases h : (catFromAliases text generalAliases).isSome
        || (catFromAliases text recyclingAliases).isSome
        || (catFromAliases text glassAliases).isSome <;> simp [h]
  · cases h : (catFromAliases text generalAliases).isSome
        || (catFromAliases text recyclingAliases).isSome
        || (catFromAliases text glassAliases).isSome <;> simp [h]
  · intro d hd
    simp [hd]

/-- Witness for C3 at a text whose `general` category finds a date. -/
theorem C3_witness :
    catFromAliases (txt "general 14/02/2025") generalAliases
        = (catCandidates (txt "general 14/02/2025") generalAliases).head? ∧
    (extractCore (txt "general 14/02/2025")).general = some (txt "2025-02-14") :=
  ⟨(C3_first_match_wins _).1 generalAliases,
   (C3_first_match_wins _).2.2.2 _ (by decide)⟩

/-! ### Claim C4 -/

/-- C4: the global fallback runs only when no category found a date;
when it runs, it can only assign to `general` (via
`found["general"] = found["general"] or parsed`), and the `recycling`
and `glass` results are exactly the per-category results in every case. -/
theorem C4_fallback_frame (text : Txt) :
    (extractCore text).recycling = catFromAliases text recyclingAliases ∧
    (extractCore text).glass = catFromAliases text glassAliases ∧
    ((catFromAliases text generalAliases).isSome ∨
     (catFromAliases text recyclingAliases).isSome ∨
     (catFromAliases text glassAliases).isSome →
      (extractCore text).general = catFromAliases text generalAliases) ∧
    (¬((catFromAliases text generalAliases).isSome ∨
       (catFromAliases text recyclingAliases).isSome ∨
       (catFromAliases text glassAliases).isSome) →
      (extractCore text).general
        = fallbackFold (catFromAliases text generalAliases) text) := by
  refine ⟨(C3_first_match_wins text).2.1, (C3_first_match_wins text).2.2.1, ?_, ?_⟩ <;>
      unfold extractCore <;> intro h
  · have hb : ((catFromAliases text generalAliases).isSome
        || (catFromAliases text recyclingAliases).isSome
        || (catFromAliases text glassAliases).isSome) = true := by
      rcases h with h | h | h <;> simp [h]
    simp [hb]
  · have hb : ((catFromAliases text generalAliases).isSome
        || (catFromAliases text recyclingAliases).isSome
        || (catFromAliases text glassAliases).isSome) = false := by
      push_neg at h
      simp [h.1, h.2.1, h.2.2]
    simp [hb]

/-- Witness for C4: a text with no alias occurrence but a
"Next collection" phrase with a nearby date; the fallback assigns the
date to `general` only. -/
theorem C4_witness :
    (extractCore (txt "Next collection: 14/02/2025")).general
        = some (txt "2025-02-14") ∧
    (extractCore (txt "Next collection: 14/02/2025")).recycling = none ∧
    (extractCore (txt "Next collection: 14/02/2025")).glass = none := by
  refine ⟨((C4_fallback_frame _).2.2.2 (by decide)).trans (by decide), ?_, ?_⟩
  · exact ((C4_fallback_frame _).1).trans (by decide)
  · exact ((C4_fallback_frame _).2.1).trans (by decide)

/-! ### Claim C6 -/

theorem lastNlIdx_lt (l : Txt) (i : Nat) (h : lastNlIdx l = some i) : i < l.length := by
  induction l generalizing i with
  | nil => cases h
  | cons c t ih =>
    unfold lastNlIdx at h
    cases ht : lastNlIdx t with
    | some j =>
      rw [ht] at h; injection h with e
      subst e
      exact Nat.succ_lt_succ (ih j ht)
    | none =>
      rw [ht] at h
      by_cases hc : c = '\n'
      · rw [if_pos hc] at h; injection h with e; subst e
        exact Nat.succ_pos _
      · rw [if_neg hc] at h; cases h

/-- C6: the claim that the wider window is always bounded by the
neighbouring newlines extended by 200 characters *clamped to the text
bounds*, and in particular always contains the occurrence, is false:
Python's `find` returns `-1` when no newline follows, so the end bound
degenerates to `min(len, 199)`.  Here the only occurrence of `black`
is at `[200, 205)`, the spec's clamped end would be `205`, but the
code's wider window is `[0, 199)` and misses the occurrence entirely. -/
theorem C6_counterexample :
    aliasOccs (txt "black") (List.replicate 200 'a' ++ txt "black") = [(200, 205)] ∧
    (List.replicate 200 'a' ++ txt "black" : Txt).length = 205 ∧
    linesWindowBounds (List.replicate 200 'a' ++ txt "black") (200, 205) = (0, 199) ∧
    specWiderEnd (List.replicate 200 'a' ++ txt "black") 205 = 205 ∧
    ¬(205 ≤ 199) :=
  ⟨by decide, by decide, by decide, by decide, by decide⟩

/-- C6 (amended): the wider window's start bound is the nearest newline
before the occurrence minus 200, clamped at 0, and never cuts off the
occurrence.  When a newline occurs at or after the occurrence's end,
the end bound is that newline's index plus 200 clamped to the text
length, and the window contains the occurrence; when no newline
follows, the end bound degenerates to `min(length, 199)` (Python's
`find` returns `-1`), so the occurrence is contained only if it ends
within the first 199 characters. -/
theorem C6_amended (text : Txt) (o : Nat × Nat) (h2 : o.2 ≤ text.length) :
    (linesWindowBounds text o).1 ≤ o.1 ∧
    (∀ j, findNl text o.2 = some j →
      (linesWindowBounds text o).2 = min text.length (j + 200) ∧
      o.2 ≤ (linesWindowBounds text o).2) ∧
    (findNl text o.2 = none →
      (linesWindowBounds text o).2 = min text.length 199) := by
  refine ⟨?_, ?_, ?_⟩
  · show (match lastNlIdx (text.take o.1) with
          | some i => i - 200
          | none => 0) ≤ o.1
    cases h : lastNlIdx (text.take o.1) with
    | none => exact Nat.zero_le _
    | some i =>
      have hi : i < (text.take o.1).length := lastNlIdx_lt _ _ h
      have : i < o.1 := lt_of_lt_of_le hi (by
        rw [List.length_take]; exact min_le_left _ _)
      exact le_trans (Nat.sub_le _ _) (Nat.le_of_lt this)
  · intro j hj
    have hji : o.2 ≤ j := by
      unfold findNl at hj
      cases hidx : List.findIdx? (fun c => c = '\n') (text.drop o.2) with
      | none => rw [hidx] at hj; cases hj
      | some i0 =>
        rw [hidx] at hj; injection hj with e; rw [← e]; exact Nat.le_add_left _ _
    constructor
    · show (match findNl text o.2 with
            | some j => min text.length (j + 200)
            | none => min text.length 199) = _
      rw [hj]
    · show o.2 ≤ (match findNl text o.2 with
            | some j => min text.length (j + 200)
            | none => min text.length 199)
      rw [hj]
      exact le_min h2 (le_trans hji (Nat.le_add_right _ _))
  · intro hn
    show (match findNl text o.2 with
          | some j => min text.length (j + 200)
          | none => min text.length 199) = _
    rw [hn]

/-- Witness for C6_amended: with a newline right after the occurrence
the wider window does contain the occurrence. -/
theorem C6_amended_witness :
    (linesWindowBounds (txt "black\nxxx") (0, 5)).1 ≤ 0 ∧
    (linesWindowBounds (txt "black\nxxx") (0, 5)).2 = min (txt "black\nxxx").length 205 ∧
    5 ≤ (linesWindowBounds (txt "black\nxxx") (0, 5)).2 := by
  have h := C6_amended (txt "black\nxxx") (0, 5) (by decide)
  have h5 := h.2.1 5 (by decide)
  exact ⟨h.1, h5.1, h5.2⟩

/-! ### Claim C9 -/

theorem aliasLoop_none_of_no_occs (text : Txt) (aliases : List Txt)
    (H : ∀ a ∈ aliases, aliasOccs a text = []) :
    aliasLoop text none aliases = none := by
  induction aliases with
  | nil => rfl
  | cons a rest ih =>
    show (let st2 := occLoop text none (aliasOccs a text)
          if st2.isSome then st2 else aliasLoop text st2 rest) = none
    rw [H a (List.mem_cons_self a rest)]
    exact ih fun a' ha' => H a' (List.mem_cons_of_mem a ha')

theorem catFromAliases_none_of_not_mentioned (text : Txt) (aliases : List Txt)
    (h : mentioned text aliases = false) :
    catFromAliases text aliases = none := by
  apply aliasLoop_none_of_no_occs
  intro a ha
  have := (List.any_eq_false.mp h) a ha
  simpa using this

/-- C9: the claim is that a category none of whose aliases occurs is
always `unknown` — "including the `general` category when the text
contains a 'next collection' phrase with a nearby date".  That last
part is false: when *no* category finds a date, the global fallback
assigns the phrase-adjacent date to `general` even though no general
alias occurs in the text. -/
theorem C9_counterexample :
    mentioned (txt "Next collection: 14/02/2025") generalAliases = false ∧
    (extractCore (txt "Next collection: 14/02/2025")).general
      = some (txt "2025-02-14") :=
  ⟨by decide, by decide⟩

/-- C9 (amended): a category none of whose aliases occurs in the text
gets `none` from the per-category search; for `recycling` and `glass`
this is the final result, while for `general` the final result may
still be set by the global fallback, namely exactly when the other
categories also found nothing. -/
theorem C9_amended (text : Txt) :
    (mentioned text recyclingAliases = false → (extractCore text).recycling = none) ∧
    (mentioned text glassAliases = false → (extractCore text).glass = none) ∧
    (mentioned text generalAliases = false →
      (extractCore text).general =
        if (catFromAliases text recyclingAliases).isSome
            || (catFromAliases text glassAliases).isSome
        then none
        else fallbackFold none text) := by
  refine ⟨?_, ?_, ?_⟩ <;> intro h
  · rw [(C3_first_match_wins text).2.1, catFromAliases_none_of_not_mentioned text _ h]
  · rw [(C3_first_match_wins text).2.2.1, catFromAliases_none_of_not_mentioned text _ h]
  · have hg : catFromAliases text generalAliases = none :=
      catFromAliases_none_of_not_mentioned text _ h
    unfold extractCore
    rw [hg]
    cases hr : (catFromAliases text recyclingAliases).isSome <;>
      cases hgl : (catFromAliases text glassAliases).isSome <;>
        simp [hr, hgl, hg]

/-- Witness for C9_amended on a text mentioning nothing at all. -/
theorem C9_witness :
    (extractCore (txt "hello world")).recycling = none ∧
    (extractCore (txt "hello world")).glass = none ∧
    (extractCore (txt "hello world")).general = none := by
  have h := C9_amended (txt "hello world")
  exact ⟨h.1 (by decide), h.2.1 (by decide), (h.2.2 (by decide)).trans (by decide)⟩

/-! ### Claim C5 -/

theorem allMatchesAux_start_le (here : Option Char → Txt → Option Nat) :
    ∀ (l : Txt) (i : Nat) (prev : Option Char),
      ∀ p ∈ allMatchesAux here i prev l, i ≤ p.1 := by
  intro l
  induction l with
  | nil =>
    intro i prev p hp
    unfold allMatchesAux at hp
    cases h : here prev [] with
    | some n => rw [h] at hp; simp at hp; subst hp; simp
    | none => rw [h] at hp; simp at hp
  | cons c t ih =>
    intro i prev p hp
    unfold allMatchesAux at hp
    rw [List.mem_append] at hp
    rcases hp with hp | hp
    · cases h : here prev (c :: t) with
      | some n => rw [h] at hp; simp at hp; subst hp; simp
      | none => rw [h] at hp; simp at hp
    · exact le_trans (Nat.le_succ i) (ih (i + 1) (some c) p hp)

theorem searchRx_eq_leftmost (here : Option Char → Txt → Option Nat) :
    ∀ (l : Txt) (prev : Option Char) (i : Nat),
      searchRx here prev l =
        (allMatchesAux here i prev l).head?.map
          (fun p => (l.drop (p.1 - i)).take (p.2 - p.1)) := by
  intro l
  induction l with
  | nil =>
    intro prev i
    unfold searchRx allMatchesAux
    cases h : here prev [] <;> simp [h]
  | cons c t ih =>
    intro prev i
    unfold searchRx allMatchesAux
    cases h : here prev (c :: t) with
    | some n => simp [h]
    | none =>
      simp only [h, List.nil_append]
      rw [ih (some c) (i + 1)]
      cases hh : (allMatchesAux here (i + 1) (some c) t).head? with
      | none => rfl
      | some p =>
        have hmem : p ∈ allMatchesAux here (i + 1) (some c) t :=
          List.mem_of_mem_head? (by rw [hh]; exact Option.mem_def.mpr rfl)
        have hle : i + 1 ≤ p.1 := allMatchesAux_start_le here t (i + 1) (some c) p hmem
        show some ((t.drop (p.1 - (i + 1))).take (p.2 - p.1))
          = some (((c :: t).drop (p.1 - i)).take (p.2 - p.1))
        have hsub : p.1 - i = (p.1 - (i + 1)) + 1 := by omega
        rw [hsub, List.drop_succ_cons]

/-- C5: the claim that the assigned date is the *nearest* date-like
substring to the alias occurrence in the searched window is false.  In
this text the window around `general` contains two date-like
substrings; the nearest one (1 character away) is `15 March 2025`, but
the code assigns the *leftmost* one, `14 February 2025` (4 characters
away on the other side). -/
theorem C5_counterexample :
    aliasOccs (txt "general") (txt "14 February 2025 xx general 15 March 2025")
      = [(20, 27)] ∧
    primaryWindow (txt "14 February 2025 xx general 15 March 2025") (20, 27)
      = txt "14 February 2025 xx general 15 March 2025" ∧
    specNearestDateMatch true (txt "14 February 2025 xx general 15 March 2025")
        0 (20, 27) = some (txt "15 March 2025") ∧
    parse_date_string (txt "15 March 2025") = some (txt "2025-03-15") ∧
    (extractCore (txt "14 February 2025 xx general 15 March 2025")).general
      = some (txt "2025-02-14") ∧
    txt "2025-02-14" ≠ txt "2025-03-15" :=
  ⟨by decide, by decide, by decide, by decide, by decide, by decide⟩

/-- C5 (amended): the windowed date search the extractor uses
(`re.search(date_rx, window)`) returns the *leftmost* date-like
substring of the window — the head of the list of all matches in
position order — not the one nearest to the alias occurrence. -/
theorem C5_amended (ic : Bool) (w : Txt) :
    dateSearch ic w
      = (allDateMatches ic w).head?.map (fun p => (w.drop p.1).take (p.2 - p.1)) := by
  have h := searchRx_eq_leftmost (dateHere ic) w none 0
  simpa using h

/-! ### Claim C8 -/

theorem lookupMonthAux_bounds :
    ∀ (ns : List Txt) (w : Txt) (i m : Nat),
      lookupMonthAux ns w i = some m → i ≤ m ∧ m < i + ns.length := by
  intro ns
  induction ns with
  | nil => intro w i m h; cases h
  | cons n ns ih =>
    intro w i m h
    unfold lookupMonthAux at h
    by_cases hw : w = n
    · rw [if_pos hw] at h; injection h with e; subst e
      exact ⟨Nat.le_refl _, by simp⟩
    · rw [if_neg hw] at h
      obtain ⟨h1, h2⟩ := ih w (i + 1) m h
      exact ⟨le_trans (Nat.le_succ i) h1, by simp at h2 ⊢; omega⟩

theorem strptimeName_valid (names : List Txt) (t : Txt) (y m d : Nat)
    (hlen : names.length = 12) (h : strptimeName names t = some (y, m, d)) :
    ValidYmd y m d := by
  unfold strptimeName at h
  dsimp only at h
  split at h
  case isFalse => cases h
  case isTrue hday =>
    split at h
    case isTrue => cases h
    case isFalse hw =>
      split at h
      case h_1 => cases h
      case h_2 m0 hlook =>
        split at h
        case isTrue => cases h
        case isFalse hw2 =>
          split at h
          case isFalse => cases h
          case isTrue hy4 =>
            split at h
            case isFalse => cases h
            case isTrue hval =>
              rw [Option.some.injEq, Prod.mk.injEq, Prod.mk.injEq] at h
              obtain ⟨e1, e2, e3⟩ := h
              obtain ⟨hm1, hm2⟩ := lookupMonthAux_bounds names _ 1 m0 hlook
              rw [hlen] at hm2
              refine ⟨?_, ?_, ?_, ?_, ?_, ?_⟩
              · rw [← e1]; exact hval.1
              · rw [← e1]; exact hval.2.1
              · rw [← e2]; exact hm1
              · rw [← e2]; omega
              · rw [← e3]; exact hval.2.2.1
              · rw [← e1, ← e2, ← e3]; exact hval.2.2.2

theorem parse_take_leadCount_le (l : Txt) (h1 : leadCount isDigitC l = 1) :
    parseDigitsNat (l.take 1) ≤ 9 := by
  cases l with
  | nil => simp [parseDigitsNat]
  | cons c t =>
    have hc : isDigitC c = true := by
      unfold leadCount at h1
      by_cases hp : isDigitC c
      · exact hp
      · rw [if_neg hp] at h1; cases h1
    show parseDigitsNat [c] ≤ 9
    have := of_decide_eq_true hc
    unfold parseDigitsNat digitVal
    simp only [List.foldl]
    omega

theorem strptimeSep_valid (sep : Char) (t : Txt) (y m d : Nat)
    (h : strptimeSep sep t = some (y, m, d)) : ValidYmd y m d := by
  unfold strptimeSep at h
  dsimp only at h
  split at h
  case isFalse => cases h
  case isTrue hday =>
    split at h
    case h_1 => cases h
    case h_2 c1 t2 heq =>
      split at h
      case isFalse => cases h
      case isTrue hc1 =>
        split at h
        case isFalse => cases h
        case isTrue hmon =>
          split at h
          case h_1 => cases h
          case h_2 c2 t4 heq2 =>
            split at h
            case isFalse => cases h
            case isTrue hc2 =>
              split at h
              case isFalse => cases h
              case isTrue hy4 =>
                split at h
                case isFalse => cases h
                case isTrue hval =>
                  rw [Option.some.injEq, Prod.mk.injEq, Prod.mk.injEq] at h
                  obtain ⟨e1, e2, e3⟩ := h
                  have hm : 1 ≤ parseDigitsNat (t2.take (leadCount isDigitC t2)) ∧
                      parseDigitsNat (t2.take (leadCount isDigitC t2)) ≤ 12 := by
                    rcases hmon with ⟨hr1, h1⟩ | ⟨_, h1, h2⟩
                    · refine ⟨h1, ?_⟩
                      rw [hr1]
                      exact le_trans (parse_take_leadCount_le t2 hr1) (by norm_num)
                    · exact ⟨h1, h2⟩
                  refine ⟨?_, ?_, ?_, ?_, ?_, ?_⟩
                  · rw [← e1]; exact hval.1
                  · rw [← e1]; exact hval.2.1
                  · rw [← e2]; exact hm.1
                  · rw [← e2]; exact hm.2
                  · rw [← e3]; exact hval.2.2.1
                  · rw [← e1, ← e2, ← e3]; exact hval.2.2.2

theorem fmtParse_valid (f : FmtId) (g : Txt) (y m d : Nat)
    (h : fmtParse f g = some (y, m, d)) : ValidYmd y m d := by
  cases f with
  | dBY => exact strptimeName_valid fullMonthsLower g y m d (by decide) h
  | dbY => exact strptimeName_valid abbrevMonthsLower g y m d (by decide) h
  | dmYslash => exact strptimeSep_valid '/' g y m d h
  | dmYdash => exact strptimeSep_valid '-' g y m d h

theorem tryFormats_shape (fs : List FmtId) (t : Txt) (r : Txt)
    (h : tryFormats fs t = some r) :
    ∃ y m d, ValidYmd y m d ∧ r = canonicalDate y m d := by
  induction fs with
  | nil => cases h
  | cons f fs ih =>
    unfold tryFormats at h
    cases hs : fmtSearch f t with
    | none => rw [hs] at h; exact ih h
    | some g =>
      rw [hs] at h
      dsimp only at h
      cases hp : fmtParse f g with
      | none => rw [hp] at h; exact ih h
      | some ymd =>
        rw [hp] at h
        dsimp only at h
        injection h with e
        exact ⟨ymd.1, ymd.2.1, ymd.2.2,
          fmtParse_valid f g ymd.1 ymd.2.1 ymd.2.2 (by rw [hp]), e.symm⟩

theorem parse_date_string_shape (s r : Txt) (h : parse_date_string s = some r) :
    ∃ y m d, ValidYmd y m d ∧ r = canonicalDate y m d :=
  tryFormats_shape patternList (stripChars s) r h

theorem bind_parse_shape (o : Option Txt) (r : Txt)
    (h : o.bind parse_date_string = some r) :
    ∃ y m d, ValidYmd y m d ∧ r = canonicalDate y m d := by
  cases o with
  | none => cases h
  | some g => exact parse_date_string_shape g r h

theorem catFromAliases_shape (text : Txt) (aliases : List Txt) (r : Txt)
    (h : catFromAliases text aliases = some r) :
    ∃ y m d, ValidYmd y m d ∧ r = canonicalDate y m d := by
  rw [catFromAliases_eq_head] at h
  have hr : r ∈ catCandidates text aliases := List.mem_of_mem_head? (by
    rw [h]; exact Option.mem_def.mpr rfl)
  unfold catCandidates at hr
  rw [List.mem_flatMap] at hr
  obtain ⟨a, _, hr⟩ := hr
  rw [List.mem_flatMap] at hr
  obtain ⟨o, _, hr⟩ := hr
  rw [List.mem_filterMap] at hr
  obtain ⟨x, hx, hid⟩ := hr
  rcases List.mem_pair.mp hx with rfl | rfl
  · simp only [id] at hid
    unfold primaryCand at hid
    exact bind_parse_shape _ r hid
  · simp only [id] at hid
    unfold linesCand at hid
    exact bind_parse_shape _ r hid

theorem fallbackFold_shape (text : Txt) (st : Option Txt) (r : Txt)
    (h : fallbackFold st text = some r) :
    st = some r ∨ ∃ y m d, ValidYmd y m d ∧ r = canonicalDate y m d := by
  unfold fallbackFold at h
  generalize hL : phraseMatches text = L at h
  clear hL
  induction L generalizing st with
  | nil => exact Or.inl h
  | cons pr L ih =>
    rw [List.foldl_cons] at h
    rcases ih _ h with hst | hshape
    · cases hds : dateSearch false (sliceT text pr.1 pr.2) with
      | none => rw [hds] at hst; exact Or.inl hst
      | some g =>
        rw [hds] at hst
        dsimp only at hst
        cases hp : parse_date_string g with
        | none => rw [hp] at hst; exact Or.inl hst
        | some p =>
          rw [hp] at hst
          dsimp only at hst
          cases st with
          | none =>
            right
            have : p = r := by
              simpa [Option.orElse] using hst
            rw [← this]
            exact parse_date_string_shape g p hp
          | some v => exact Or.inl (by simpa [Option.orElse] using hst)
    · exact Or.inr hshape

/-- C8: for every input text, the extractor's result has exactly one
slot per configured category (`general`, `recycling`, `glass` — the
`BinsFound` record), each holding either `none` or the canonical
`YYYY-MM-DD` rendering of a calendar-valid date; and the empty input
text yields `none` for every category. -/
theorem C8_total_output (text : Txt) :
    ((extractCore text).general = none ∨
      ∃ y m d, ValidYmd y m d ∧ (extractCore text).general = some (canonicalDate y m d)) ∧
    ((extractCore text).recycling = none ∨
      ∃ y m d, ValidYmd y m d ∧ (extractCore text).recycling = some (canonicalDate y m d)) ∧
    ((extractCore text).glass = none ∨
      ∃ y m d, ValidYmd y m d ∧ (extractCore text).glass = some (canonicalDate y m d)) ∧
    extract_bins_from_text [] = ⟨none, none, none⟩ := by
  have hfield : ∀ (v : Option Txt),
      (∀ r, v = some r → ∃ y m d, ValidYmd y m d ∧ r = canonicalDate y m d) →
      v = none ∨ ∃ y m d, ValidYmd y m d ∧ v = some (canonicalDate y m d) := by
    intro v hv
    cases hv2 : v with
    | none => exact Or.inl rfl
    | some r =>
      obtain ⟨y, m, d, hval, hr⟩ := hv 
        r hv2
      exact Or.inr ⟨y, m, d, hval, by rw [hr]⟩
  refine ⟨?_, ?_, ?_, by decide⟩
  · apply hfield
    intro r hr
    unfold extractCore at hr
    by_cases hb : ((catFromAliases text generalAliases).isSome
        || (catFromAliases text recyclingAliases).isSome
        || (catFromAliases text glassAliases).isSome) = true
    · rw [if_pos hb] at hr
      exact catFromAliases_shape text generalAliases r hr
    · rw [if_neg hb] at hr
      rcases fallbackFold_shape text _ r hr with hst | hshape
      · exact catFromAliases_shape text generalAliases r hst
      · exact hshape
  · apply hfield
    intro r hr
    unfold extractCore at hr
    by_cases hb : ((catFromAliases text generalAliases).isSome
        || (catFromAliases text recyclingAliases).isSome
        || (catFromAliases text glassAliases).isSome) = true
    · rw [if_pos hb] at hr
      exact catFromAliases_shape text recyclingAliases r hr
    · rw [if_neg hb] at hr
      exact catFromAliases_shape text recyclingAliases r hr
  · apply hfield
    intro r hr
    unfold extractCore at hr
    by_cases hb : ((catFromAliases text generalAliases).isSome
        || (catFromAliases text recyclingAliases).isSome
        || (catFromAliases text glassAliases).isSome) = true
    · rw [if_pos hb] at hr
      exact catFromAliases_shape text glassAliases r hr
    · rw [if_neg hb] at hr
      exact catFromAliases_shape text glassAliases r hr

/-! ### Claim C10 -/

theorem isPrefixOf_append_self : ∀ (a b : Txt), a.isPrefixOf (a ++ b) = true := by
  intro a b
  induction a with
  | nil => simp [List.isPrefixOf]
  | cons c t ih =>
    show (c == c && t.isPrefixOf (t ++ b)) = true
    rw [ih]
    simp

theorem containsSeq_append (pat s t2 : Txt) :
    containsSeq pat (s ++ pat ++ t2) = true := by
  induction s with
  | nil =>
    show containsSeq pat (pat ++ t2) = true
    cases pat with
    | nil =>
      cases t2 with
      | nil => rfl
      | cons c t =>
        show (List.isPrefixOf [] (c :: t) || containsSeq [] t) = true
        rfl
    | cons p ps =>
      show (List.isPrefixOf (p :: ps) ((p :: ps) ++ t2)
            || containsSeq (p :: ps) (ps ++ t2)) = true
      rw [isPrefixOf_append_self]
      rfl
  | cons c s ih =>
    show (List.isPrefixOf pat (c :: (s ++ pat ++ t2))
          || containsSeq pat (s ++ pat ++ t2)) = true
    rw [ih]
    simp

theorem containsSeq_of_seg (pat L : Txt) (h : pat <:+: L) :
    containsSeq pat L = true := by
  obtain ⟨s, t2, rfl⟩ := h
  exact containsSeq_append pat s t2

theorem take_of_drop_seg (l : Txt) (a n : Nat) : (l.drop a).take n <:+: l :=
  ⟨l.take a, (l.drop a).drop n, by
    rw [List.append_assoc, List.take_append_drop n (l.drop a),
      List.take_append_drop a l]⟩

theorem seg_map (f : Char → Char) (x l : Txt) (h : x <:+: l) :
    x.map f <:+: l.map f := by
  obtain ⟨s, t2, rfl⟩ := h
  exact ⟨s.map f, t2.map f, by simp⟩

theorem seg_trans (x y z : Txt) (h1 : x <:+: y) (h2 : y <:+: z) : x <:+: z := by
  obtain ⟨s1, t1, rfl⟩ := h1
  obtain ⟨s2, t2, rfl⟩ := h2
  exact ⟨s2 ++ s1, t1 ++ t2, by simp⟩

theorem seg_mem (x l : Txt) (c : Char) (h : x <:+: l) (hc : c ∈ x) : c ∈ l := by
  obtain ⟨s, t2, rfl⟩ := h
  simp [hc]

theorem seg_cons (c : Char) (x l : Txt) (h : x <:+: l) : x <:+: (c :: l) := by
  obtain ⟨s, t2, rfl⟩ := h
  exact ⟨c :: s, t2, rfl⟩

theorem dateHere_nil (ic : Bool) (prev : Option Char) : dateHere ic prev [] = none := by
  unfold dateHere
  cases hb : atBoundary prev
  · simp
  · simp only [Bool.not_true]
    rw [if_neg (by simp)]
    cases ic <;> decide

theorem dateSlashBranch_mem (l : Txt) (n : Nat) (h : dateSlashBranch l = some n) :
    '/' ∈ l := by
  unfold dateSlashBranch at h
  dsimp only at h
  split at h
  case isTrue => cases h
  case isFalse hr =>
    split at h
    case h_1 => cases h
    case h_2 c1 t2 heq =>
      split at h
      case isTrue => cases h
      case isFalse hc1 =>
        have hc : c1 = '/' := not_not.mp hc1
        subst hc
        have hmem : '/' ∈ l.drop (leadCount isDigitC l) := by
          rw [heq]
          exact List.mem_cons_self _ _
        exact List.mem_of_mem_drop hmem

theorem dateNameBranch_fact (ic : Bool) (l : Txt) (n : Nat)
    (h : dateNameBranch ic l = some n) :
    ∃ w, w <:+: l ∧ rxMonthWordOk ic w = true := by
  unfold dateNameBranch at h
  dsimp only at h
  split at h
  case isTrue => cases h
  case isFalse hr =>
    split at h
    case isTrue => cases h
    case isFalse hw =>
      split at h
      case isTrue => cases h
      case isFalse hok =>
        refine ⟨_, ?_, not_not.mp hok⟩
        rw [List.drop_drop]
        exact take_of_drop_seg l _ _

theorem monthWord_names (ic : Bool) (w l : Txt) (hseg : w <:+: l)
    (hok : rxMonthWordOk ic w = true) :
    ∃ nm ∈ rxMonthsLower, nm <:+: lowerL l := by
  unfold rxMonthWordOk at hok
  cases ic with
  | true =>
    rw [if_pos rfl] at hok
    exact ⟨lowerL w, of_decide_eq_true hok, seg_map toLowerC w l hseg⟩
  | false =>
    rw [if_neg (by simp)] at hok
    refine ⟨lowerL w, ?_, seg_map toLowerC w l hseg⟩
    unfold rxMonthsLower
    exact List.mem_map_of_mem lowerL (of_decide_eq_true hok)

theorem dateHere_some_facts (ic : Bool) (prev : Option Char) (l : Txt) (n : Nat)
    (h : dateHere ic prev l = some n) :
    (∃ nm ∈ rxMonthsLower, nm <:+: lowerL l) ∨ '/' ∈ l := by
  unfold dateHere at h
  split at h
  case isTrue => cases h
  case isFalse hb =>
    split at h
    case h_1 n' heq =>
      obtain ⟨w, hseg, hok⟩ := dateNameBranch_fact ic l n' heq
      exact Or.inl (monthWord_names ic w l hseg hok)
    case h_2 heq => exact Or.inr (dateSlashBranch_mem l n h)

theorem searchDate_none (ic : Bool) :
    ∀ (l : Txt) (prev : Option Char), '/' ∉ l →
      (∀ nm ∈ rxMonthsLower, ¬ nm <:+: lowerL l) →
      searchRx (dateHere ic) prev l = none := by
  intro l
  induction l with
  | nil =>
    intro prev _ _
    unfold searchRx
    rw [dateHere_nil]
  | cons c t ih =>
    intro prev h1 h2
    unfold searchRx
    cases hd : dateHere ic prev (c :: t) with
    | some n =>
      exfalso
      rcases dateHere_some_facts ic prev (c :: t) n hd with ⟨nm, hm, hinf⟩ | hmem
      · exact h2 nm hm hinf
      · exact h1 hmem
    | none =>
      apply ih
      · intro hc; exact h1 (List.mem_cons_of_mem c hc)
      · intro nm hm hinf
        refine h2 nm hm ?_
        show nm <:+: (toLowerC c :: lowerL t)
        exact seg_cons _ _ _ hinf

theorem dateSearch_none_global (text : Txt) (h1 : '/' ∉ text)
    (h2 : ∀ nm ∈ rxMonthsLower, containsSeq nm (lowerL text) = false) :
    ∀ (ic : Bool) (w : Txt), w <:+: text → dateSearch ic w = none := by
  intro ic w hw
  apply searchDate_none
  · intro hc
    exact h1 (seg_mem w text '/' hw hc)
  · intro nm hm hinf
    have hseg : nm <:+: lowerL text :=
      seg_trans _ _ _ hinf (seg_map toLowerC w text hw)
    have := containsSeq_of_seg nm (lowerL text) hseg
    rw [h2 nm hm] at this
    cases this

theorem extract_none_of_no_dates (text : Txt)
    (H : ∀ (ic : Bool) (w : Txt), w <:+: text → dateSearch ic w = none) :
    extractCore text = ⟨none, none, none⟩ := by
  have hocc : ∀ o, occTry text o = none := by
    intro o
    unfold occTry
    rw [H true (primaryWindow text o) (take_of_drop_seg text _ _)]
    unfold linesTry
    rw [H true (linesWindow text o) (take_of_drop_seg text _ _)]
  have hloop : ∀ os st, occLoop text st os = st := by
    intro os
    induction os with
    | nil => intro st; rfl
    | cons o os ih =>
      intro st
      show (match occTry text o with
            | some d => some d
            | none => occLoop text st os) = st
      rw [hocc o]
      exact ih st
  have hcat : ∀ aliases, catFromAliases text aliases = none := by
    intro aliases
    unfold catFromAliases
    induction aliases with
    | nil => rfl
    | cons a rest ih =>
      show (if (occLoop text none (aliasOccs a text)).isSome
            then occLoop text none (aliasOccs a text)
            else aliasLoop text (occLoop text none (aliasOccs a text)) rest) = none
      rw [hloop (aliasOccs a text) none]
      exact ih
  have hfb : fallbackFold none text = none := by
    unfold fallbackFold
    generalize phraseMatches text = L
    induction L with
    | nil => rfl
    | cons pr L ih =>
      rw [List.foldl_cons]
      have hred : (match dateSearch false (sliceT text pr.1 pr.2) with
          | none => (none : Option Txt)
          | some g =>
            match parse_date_string g with
            | none => none
            | some p => Option.orElse none (fun _ => some p)) = none := by
        rw [H false (sliceT text pr.1 pr.2) (take_of_drop_seg text _ _)]
      show List.foldl _ (match dateSearch false (sliceT text pr.1 pr.2) with
          | none => (none : Option Txt)
          | some g =>
            match parse_date_string g with
            | none => none
            | some p => Option.orElse none (fun _ => some p)) L = none
      rw [hred]
      exact ih
  unfold extractCore
  rw [hcat generalAliases, hcat recyclingAliases, hcat glassAliases]
  simp [hfb]

/-- C10: the windowed search `date_rx` recognizes only month-name and
slash-separated date shapes.  For any text containing no `/` and no
month name (so that every date-like substring in it is hyphen-shaped,
like `14-02-2025`), every category's result is `none` — even though
`parse_date_string` itself accepts the hyphen format, as the second
conjunct shows. -/
theorem C10_no_hyphen_dates (text : Txt)
    (h1 : '/' ∉ text)
    (h2 : ∀ nm ∈ rxMonthsLower, containsSeq nm (lowerL text) = false) :
    extractCore text = ⟨none, none, none⟩ ∧
    parse_date_string (txt "14-02-2025") = some (txt "2025-02-14") :=
  ⟨extract_none_of_no_dates text (dateSearch_none_global text h1 h2), by decide⟩

/-- Witness for C10: a text whose only date is hyphen-separated and
sits right next to an alias of both `general` and `glass`. -/
theorem C10_witness :
    extractCore (txt "black bin 14-02-2025") = ⟨none, none, none⟩ ∧
    parse_date_string (txt "14-02-2025") = some (txt "2025-02-14") :=
  C10_no_hyphen_dates (txt "black bin 14-02-2025") (by decide) (by decide)

/-! ### Claim C2: digit-string facts -/

theorem decDigitsAux_fuel_eq (n : Nat) :
    ∀ (f1 f2 : Nat), n < f1 → n < f2 → decDigitsAux f1 n = decDigitsAux f2 n := by
  induction n using Nat.strong_induction_on with
  | _ n ih =>
    intro f1 f2 h1 h2
    cases f1 with
    | zero => omega
    | succ k1 =>
      cases f2 with
      | zero => omega
      | succ k2 =>
        show (if n < 10 then [digitChar n]
              else decDigitsAux k1 (n / 10) ++ [digitChar (n % 10)]) =
             (if n < 10 then [digitChar n]
              else decDigitsAux k2 (n / 10) ++ [digitChar (n % 10)])
        by_cases hn : n < 10
        · rw [if_pos hn, if_pos hn]
        · rw [if_neg hn, if_neg hn]
          have hd : n / 10 < n := Nat.div_lt_self (by omega) (by omega)
          rw [ih (n / 10) hd k1 (n / 10 + 1) (by omega) (by omega),
            ih (n / 10) hd k2 (n / 10 + 1) (by omega) (by omega)]

theorem decDigits_lt10 (n : Nat) (h : n < 10) : decDigits n = [digitChar n] := by
  show decDigitsAux (n + 1) n = [digitChar n]
  unfold decDigitsAux
  rw [if_pos h]

theorem decDigits_ge10 (n : Nat) (h : 10 ≤ n) :
    decDigits n = decDigits (n / 10) ++ [digitChar (n % 10)] := by
  show decDigitsAux (n + 1) n = _
  unfold decDigitsAux
  rw [if_neg (by omega)]
  have hd : n / 10 < n := Nat.div_lt_self (by omega) (by omega)
  rw [decDigitsAux_fuel_eq (n / 10) n (n / 10 + 1) (by omega) (by omega)]
  rfl

theorem digitChar_isDigit (x : Nat) (h : x < 10) : isDigitC (digitChar x) = true := by
  interval_cases x <;> decide

theorem digitVal_digitChar (x : Nat) (h : x < 10) : digitVal (digitChar x) = x := by
  interval_cases x <;> decide

theorem digit_not_space (c : Char) (h : isDigitC c = true) : isSpaceC c = false := by
  unfold isDigitC at h
  unfold isSpaceC
  have := of_decide_eq_true h
  exact decide_eq_false (by omega)

theorem digit_not_alpha (c : Char) (h : isDigitC c = true) : isAlphaC c = false := by
  unfold isDigitC at h
  unfold isAlphaC
  have := of_decide_eq_true h
  exact decide_eq_false (by omega)

theorem alpha_not_space (c : Char) (h : isAlphaC c = true) : isSpaceC c = false := by
  unfold isAlphaC at h
  unfold isSpaceC
  have := of_decide_eq_true h
  exact decide_eq_false (by omega)

theorem alpha_not_digit (c : Char) (h : isAlphaC c = true) : isDigitC c = false := by
  unfold isAlphaC at h
  unfold isDigitC
  have := of_decide_eq_true h
  exact decide_eq_false (by omega)

theorem decDigits_two (n : Nat) (h1 : 10 ≤ n) (h2 : n ≤ 99) :
    decDigits n = [digitChar (n / 10), digitChar (n % 10)] := by
  rw [decDigits_ge10 n h1, decDigits_lt10 (n / 10) (by omega)]
  rfl

theorem decDigits_four (y : Nat) (h1 : 1000 ≤ y) (h2 : y ≤ 9999) :
    decDigits y = [digitChar (y / 1000), digitChar (y / 100 % 10),
      digitChar (y / 10 % 10), digitChar (y % 10)] := by
  rw [decDigits_ge10 y (by omega),
    decDigits_ge10 (y / 10) (by omega),
    decDigits_ge10 (y / 10 / 10) (by omega),
    decDigits_lt10 (y / 10 / 10 / 10) (by omega)]
  have e1 : y / 10 / 10 = y / 100 := by omega
  have e2 : y / 10 / 10 / 10 = y / 1000 := by omega
  have e3 : y / 10 % 10 = y / 10 % 10 := rfl
  rw [e1] at *
  rw [e2]
  have e4 : y / 100 / 10 = y / 1000 := by omega
  simp [e4]

theorem parseDigits_cons_zero (l : Txt) : parseDigitsNat ('0' :: l) = parseDigitsNat l := rfl

theorem parseDigits_one (x : Nat) (h : x < 10) : parseDigitsNat [digitChar x] = x := by
  unfold parseDigitsNat
  simp [List.foldl]
  unfold digitVal
  have := digitVal_digitChar x h
  unfold digitVal at this
  omega

theorem parseDigits_decDigits_le99 (n : Nat) (h2 : n ≤ 99) :
    parseDigitsNat (decDigits n) = n := by
  by_cases h : n < 10
  · rw [decDigits_lt10 n h]
    exact parseDigits_one n h
  · rw [decDigits_two n (by omega) h2]
    unfold parseDigitsNat
    simp [List.foldl]
    unfold digitVal
    have d1 := digitVal_digitChar (n / 10) (by omega)
    have d2 := digitVal_digitChar (n % 10) (by omega)
    unfold digitVal at d1 d2
    omega

theorem parseDigits_decDigits_year (y : Nat) (h1 : 1000 ≤ y) (h2 : y ≤ 9999) :
    parseDigitsNat (decDigits y) = y := by
  rw [decDigits_four y h1 h2]
  unfold parseDigitsNat
  simp [List.foldl]
  unfold digitVal
  have d1 := digitVal_digitChar (y / 1000) (by omega)
  have d2 := digitVal_digitChar (y / 100 % 10) (by omega)
  have d3 := digitVal_digitChar (y / 10 % 10) (by omega)
  have d4 := digitVal_digitChar (y % 10) (by omega)
  unfold digitVal at d1 d2 d3 d4
  omega

theorem decDigits_all_digit_le99 (n : Nat) (h2 : n ≤ 99) :
    ∀ c ∈ decDigits n, isDigitC c = true := by
  by_cases h : n < 10
  · rw [decDigits_lt10 n h]
    intro c hc
    rcases List.mem_singleton.mp hc with rfl
    exact digitChar_isDigit n h
  · rw [decDigits_two n (by omega) h2]
    intro c hc
    rcases List.mem_pair.mp hc with rfl | rfl
    · exact digitChar_isDigit _ (by omega)
    · exact digitChar_isDigit _ (by omega)

theorem decDigits_all_digit_year (y : Nat) (h1 : 1000 ≤ y) (h2 : y ≤ 9999) :
    ∀ c ∈ decDigits y, isDigitC c = true := by
  rw [decDigits_four y h1 h2]
  intro c hc
  simp only [List.mem_cons, List.not_mem_nil, or_false] at hc
  rcases hc with rfl | rfl | rfl | rfl
  · exact digitChar_isDigit _ (by omega)
  · exact digitChar_isDigit _ (by omega)
  · exact digitChar_isDigit _ (by omega)
  · exact digitChar_isDigit _ (by omega)

theorem decDigits_length_year (y : Nat) (h1 : 1000 ≤ y) (h2 : y ≤ 9999) :
    (decDigits y).length = 4 := by
  rw [decDigits_four y h1 h2]
  rfl

theorem numChars_spec (pad : Bool) (n : Nat) (h1 : 1 ≤ n) (h99 : n ≤ 99) :
    numChars pad n ≠ [] ∧ (∀ c ∈ numChars pad n, isDigitC c = true) ∧
    parseDigitsNat (numChars pad n) = n ∧
    (((numChars pad n).length = 1 ∧ n < 10) ∨ (numChars pad n).length = 2) := by
  unfold numChars
  by_cases hp : pad = true ∧ n < 10
  · rw [if_pos hp]
    rw [decDigits_lt10 n hp.2]
    refine ⟨by simp, ?_, ?_, Or.inr rfl⟩
    · intro c hc
      rcases List.mem_pair.mp hc with rfl | rfl
      · decide
      · exact digitChar_isDigit n hp.2
    · rw [show ('0' :: [digitChar n] : Txt) = '0' :: [digitChar n] from rfl]
      rw [show parseDigitsNat ('0' :: [digitChar n]) = parseDigitsNat [digitChar n]
        from parseDigits_cons_zero _]
      exact parseDigits_one n hp.2
  · rw [if_neg hp]
    by_cases h : n < 10
    · rw [decDigits_lt10 n h]
      exact ⟨by simp, by
        intro c hc
        rcases List.mem_singleton.mp hc with rfl
        exact digitChar_isDigit n h, parseDigits_one n h, Or.inl ⟨rfl, h⟩⟩
    · rw [decDigits_two n (by omega) h99]
      refine ⟨by simp, ?_, ?_, Or.inr rfl⟩
      · intro c hc
        rcases List.mem_pair.mp hc with rfl | rfl
        · exact digitChar_isDigit _ (by omega)
        · exact digitChar_isDigit _ (by omega)
      · rw [← decDigits_two n (by omega) h99]
        exact parseDigits_decDigits_le99 n h99

theorem leadCount_cons_true (p : Char → Bool) (c : Char) (l : Txt)
    (h : p c = true) : leadCount p (c :: l) = leadCount p l + 1 := by
  show (if p c = true then leadCount p l + 1 else 0) = leadCount p l + 1
  rw [if_pos h]

theorem leadCount_cons_false (p : Char → Bool) (c : Char) (l : Txt)
    (h : p c = false) : leadCount p (c :: l) = 0 := by
  show (if p c = true then leadCount p l + 1 else 0) = 0
  rw [h]
  simp

theorem leadCount_append_all (p : Char → Bool) (xs ys : Txt)
    (h : ∀ c ∈ xs, p c = true) :
    leadCount p (xs ++ ys) = xs.length + leadCount p ys := by
  induction xs with
  | nil => simp [leadCount]
  | cons c t ih =>
    show leadCount p (c :: (t ++ ys)) = _
    rw [leadCount_cons_true p c (t ++ ys) (h c (List.mem_cons_self c t))]
    rw [ih fun c hc => h c (List.mem_cons_of_mem _ hc)]
    simp [List.length_cons]
    omega

theorem leadCount_all (p : Char → Bool) (l : Txt) (h : ∀ c ∈ l, p c = true) :
    leadCount p l = l.length := by
  have := leadCount_append_all p l [] h
  rw [List.append_nil] at this
  rw [this]
  rfl

theorem searchRx_head (here : Option Char → Txt → Option Nat) (l : Txt) (n : Nat)
    (h : here none l = some n) : searchRx here none l = some (l.take n) := by
  cases l with
  | nil => unfold searchRx; rw [h]
  | cons c t => unfold searchRx; rw [h]

theorem getLast?_append_right (l1 l2 : Txt) (h : l2 ≠ []) :
    (l1 ++ l2).getLast? = l2.getLast? := by
  obtain ⟨c, hc⟩ : ∃ c, l2.getLast? = some c :=
    ⟨l2.getLast h, List.getLast?_eq_getLast l2 h⟩
  simp [hc]

theorem stripChars_eq_self (l : Txt)
    (h1 : ∀ c, l.head? = some c → isSpaceC c = false)
    (h2 : ∀ c, l.getLast? = some c → isSpaceC c = false) :
    stripChars l = l := by
  unfold stripChars
  have hd : l.dropWhile isSpaceC = l := by
    cases l with
    | nil => rfl
    | cons c t =>
      rw [List.dropWhile_cons, h1 c rfl]
      simp
  rw [hd]
  have hr : l.reverse.dropWhile isSpaceC = l.reverse := by
    cases hrev : l.reverse with
    | nil => rfl
    | cons c t =>
      have hlast : l.getLast? = some c := by
        rw [← List.head?_reverse, hrev]
        rfl
      rw [List.dropWhile_cons, h2 c hlast]
      simp
  rw [hr, List.reverse_reverse]

theorem strptimeName_render_eq (names : List Txt) (D N Y : Txt)
    (hDdig : ∀ c ∈ D, isDigitC c = true)
    (hday : dayRunOk D.length (parseDigitsNat D))
    (hN : N ≠ []) (hNal : ∀ c ∈ N, isAlphaC c = true)
    (hY : Y.length = 4) (hYdig : ∀ c ∈ Y, isDigitC c = true) :
    strptimeName names (D ++ ' ' :: (N ++ ' ' :: Y)) =
      match lookupMonth names (lowerL N) with
      | none => none
      | some m =>
        if 1 ≤ parseDigitsNat Y ∧ parseDigitsNat Y ≤ 9999 ∧ 1 ≤ parseDigitsNat D ∧
            parseDigitsNat D ≤ daysInMonth (parseDigitsNat Y) m
        then some (parseDigitsNat Y, m, parseDigitsNat D) else none := by
  obtain ⟨nc, N', rfl⟩ : ∃ nc N', N = nc :: N' := by
    cases N with
    | nil => exact absurd rfl hN
    | cons a b => exact ⟨a, b, rfl⟩
  obtain ⟨yc, Y', rfl⟩ : ∃ yc Y', Y = yc :: Y' := by
    cases Y with
    | nil => cases hY
    | cons a b => exact ⟨a, b, rfl⟩
  have hr : leadCount isDigitC (D ++ ' ' :: ((nc :: N') ++ ' ' :: (yc :: Y')))
      = D.length := by
    rw [leadCount_append_all isDigitC D _ hDdig,
      leadCount_cons_false isDigitC ' ' _ (by decide)]
    omega
  have hw : leadCount isSpaceC (' ' :: ((nc :: N') ++ ' ' :: (yc :: Y'))) = 1 := by
    rw [leadCount_cons_true _ _ _ (by decide)]
    rw [show ((nc :: N') ++ ' ' :: (yc :: Y') : Txt)
        = nc :: (N' ++ ' ' :: (yc :: Y')) from rfl]
    rw [leadCount_cons_false _ _ _
      (alpha_not_space nc (hNal nc (List.mem_cons_self _ _)))]
  have ha : leadCount isAlphaC ((nc :: N') ++ ' ' :: (yc :: Y'))
      = (nc :: N').length := by
    rw [leadCount_append_all isAlphaC _ _ hNal,
      leadCount_cons_false isAlphaC ' ' _ (by decide)]
    omega
  have hw2 : leadCount isSpaceC (' ' :: (yc :: Y')) = 1 := by
    rw [leadCount_cons_true _ _ _ (by decide),
      leadCount_cons_false _ _ _
        (digit_not_space yc (hYdig yc (List.mem_cons_self _ _)))]
  have hy4 : leadCount isDigitC (yc :: Y') = 4 := by
    rw [leadCount_all isDigitC _ hYdig]
    exact hY
  unfold strptimeName
  dsimp only
  rw [hr, List.take_left, List.drop_left]
  rw [if_pos hday]
  rw [hw]
  rw [if_neg (by omega)]
  rw [List.drop_succ_cons, List.drop_zero]
  rw [ha, List.take_left, List.drop_left]
  cases hlook : lookupMonth names (lowerL (nc :: N')) with
  | none => rfl
  | some m =>
    dsimp only
    rw [hw2]
    rw [if_neg (by omega)]
    rw [List.drop_succ_cons, List.drop_zero]
    rw [hy4]
    rw [if_pos ⟨rfl, hY⟩]

theorem strptimeSep_render_eq (sep : Char) (D M Y : Txt)
    (hsepd : isDigitC sep = false)
    (hDdig : ∀ c ∈ D, isDigitC c = true)
    (hday : dayRunOk D.length (parseDigitsNat D))
    (hMdig : ∀ c ∈ M, isDigitC c = true)
    (hmon : monthRunOk M.length (parseDigitsNat M))
    (hY : Y.length = 4) (hYdig : ∀ c ∈ Y, isDigitC c = true) :
    strptimeSep sep (D ++ sep :: (M ++ sep :: Y)) =
      if 1 ≤ parseDigitsNat Y ∧ parseDigitsNat Y ≤ 9999 ∧ 1 ≤ parseDigitsNat D ∧
          parseDigitsNat D ≤ daysInMonth (parseDigitsNat Y) (parseDigitsNat M)
      then some (parseDigitsNat Y, parseDigitsNat M, parseDigitsNat D) else none := by
  have hr : leadCount isDigitC (D ++ sep :: (M ++ sep :: Y)) = D.length := by
    rw [leadCount_append_all isDigitC D _ hDdig,
      leadCount_cons_false isDigitC sep _ hsepd]
    omega
  have hr2 : leadCount isDigitC (M ++ sep :: Y) = M.length := by
    rw [leadCount_append_all isDigitC M _ hMdig,
      leadCount_cons_false isDigitC sep _ hsepd]
    omega
  have hy4 : leadCount isDigitC Y = 4 := by
    rw [leadCount_all isDigitC _ hYdig]
    exact hY
  unfold strptimeSep
  dsimp only
  rw [hr, List.take_left, List.drop_left]
  rw [if_pos hday]
  dsimp only
  rw [if_pos rfl]
  rw [hr2, List.take_left, List.drop_left]
  rw [if_pos hmon]
  dsimp only
  rw [if_pos rfl]
  rw [hy4]
  rw [if_pos ⟨rfl, hY⟩]

theorem p1Here_render (D N Y : Txt)
    (hDdig : ∀ c ∈ D, isDigitC c = true)
    (hlen : D.length = 1 ∨ D.length = 2)
    (hN : N ≠ []) (hNal : ∀ c ∈ N, isAlphaC c = true)
    (hY : Y.length = 4) (hYdig : ∀ c ∈ Y, isDigitC c = true) :
    p1Here none (D ++ ' ' :: (N ++ ' ' :: Y)) =
      some (D ++ ' ' :: (N ++ ' ' :: Y)).length := by
  obtain ⟨nc, N', rfl⟩ : ∃ nc N', N = nc :: N' := by
    cases N with
    | nil => exact absurd rfl hN
    | cons a b => exact ⟨a, b, rfl⟩
  obtain ⟨yc, Y', rfl⟩ : ∃ yc Y', Y = yc :: Y' := by
    cases Y with
    | nil => cases hY
    | cons a b => exact ⟨a, b, rfl⟩
  have hr : leadCount isDigitC (D ++ ' ' :: ((nc :: N') ++ ' ' :: (yc :: Y')))
      = D.length := by
    rw [leadCount_append_all isDigitC D _ hDdig,
      leadCount_cons_false isDigitC ' ' _ (by decide)]
    omega
  have hw : leadCount isSpaceC (' ' :: ((nc :: N') ++ ' ' :: (yc :: Y'))) = 1 := by
    rw [leadCount_cons_true _ _ _ (by decide)]
    rw [show ((nc :: N') ++ ' ' :: (yc :: Y') : Txt)
        = nc :: (N' ++ ' ' :: (yc :: Y')) from rfl]
    rw [leadCount_cons_false _ _ _
      (alpha_not_space nc (hNal nc (List.mem_cons_self _ _)))]
  have ha : leadCount isAlphaC ((nc :: N') ++ ' ' :: (yc :: Y'))
      = (nc :: N').length := by
    rw [leadCount_append_all isAlphaC _ _ hNal,
      leadCount_cons_false isAlphaC ' ' _ (by decide)]
    omega
  have hw2 : leadCount isSpaceC (' ' :: (yc :: Y')) = 1 := by
    rw [leadCount_cons_true _ _ _ (by decide),
      leadCount_cons_false _ _ _
        (digit_not_space yc (hYdig yc (List.mem_cons_self _ _)))]
  have hy4 : leadCount isDigitC (yc :: Y') = 4 := by
    rw [leadCount_all isDigitC _ hYdig]
    exact hY
  unfold p1Here
  rw [if_neg (by decide)]
  dsimp only
  rw [hr]
  rw [if_neg (not_not_intro hlen)]
  rw [List.drop_left, hw]
  rw [if_neg (by omega)]
  rw [List.drop_succ_cons, List.drop_zero, ha]
  rw [if_neg (by simp)]
  rw [List.drop_left, hw2]
  rw [if_neg (by omega)]
  rw [List.drop_succ_cons, List.drop_zero, hy4]
  rw [if_pos ⟨rfl, by
    rw [show ((yc :: Y' : Txt)).drop 4 = (yc :: Y').drop (yc :: Y').length from by
      rw [hY]]
    rw [List.drop_length]
    rfl⟩]
  congr 1
  simp [List.length_append, hY]
  omega

theorem p2Here_render (D N Y : Txt)
    (hDdig : ∀ c ∈ D, isDigitC c = true)
    (hlen : D.length = 1 ∨ D.length = 2)
    (hN3 : N.length = 3) (hNal : ∀ c ∈ N, isAlphaC c = true)
    (hY : Y.length = 4) (hYdig : ∀ c ∈ Y, isDigitC c = true) :
    p2Here none (D ++ ' ' :: (N ++ ' ' :: Y)) =
      some (D ++ ' ' :: (N ++ ' ' :: Y)).length := by
  obtain ⟨nc, N', rfl⟩ : ∃ nc N', N = nc :: N' := by
    cases N with
    | nil => cases hN3
    | cons a b => exact ⟨a, b, rfl⟩
  obtain ⟨yc, Y', rfl⟩ : ∃ yc Y', Y = yc :: Y' := by
    cases Y with
    | nil => cases hY
    | cons a b => exact ⟨a, b, rfl⟩
  have hr : leadCount isDigitC (D ++ ' ' :: ((nc :: N') ++ ' ' :: (yc :: Y')))
      = D.length := by
    rw [leadCount_append_all isDigitC D _ hDdig,
      leadCount_cons_false isDigitC ' ' _ (by decide)]
    omega
  have hw : leadCount isSpaceC (' ' :: ((nc :: N') ++ ' ' :: (yc :: Y'))) = 1 := by
    rw [leadCount_cons_true _ _ _ (by decide)]
    rw [show ((nc :: N') ++ ' ' :: (yc :: Y') : Txt)
        = nc :: (N' ++ ' ' :: (yc :: Y')) from rfl]
    rw [leadCount_cons_false _ _ _
      (alpha_not_space nc (hNal nc (List.mem_cons_self _ _)))]
  have ha : leadCount isAlphaC ((nc :: N') ++ ' ' :: (yc :: Y'))
      = (nc :: N').length := by
    rw [leadCount_append_all isAlphaC _ _ hNal,
      leadCount_cons_false isAlphaC ' ' _ (by decide)]
    omega
  have hw2 : leadCount isSpaceC (' ' :: (yc :: Y')) = 1 := by
    rw [leadCount_cons_true _ _ _ (by decide),
      leadCount_cons_false _ _ _
        (digit_not_space yc (hYdig yc (List.mem_cons_self _ _)))]
  have hy4 : leadCount isDigitC (yc :: Y') = 4 := by
    rw [leadCount_all isDigitC _ hYdig]
    exact hY
  unfold p2Here
  rw [if_neg (by decide)]
  dsimp only
  rw [hr]
  rw [if_neg (not_not_intro hlen)]
  rw [List.drop_left, hw]
  rw [if_neg (by omega)]
  rw [List.drop_succ_cons, List.drop_zero, ha]
  rw [if_neg (not_not_intro hN3)]
  rw [List.drop_left, hw2]
  rw [if_neg (by omega)]
  rw [List.drop_succ_cons, List.drop_zero, hy4]
  rw [if_pos ⟨rfl, by
    rw [show ((yc :: Y' : Txt)).drop 4 = (yc :: Y').drop (yc :: Y').length from by
      rw [hY]]
    rw [List.drop_length]
    rfl⟩]
  congr 1
  have hN' : N'.length = 2 := by simp at hN3; omega
  have hY' : Y'.length = 3 := by simp at hY; omega
  simp [List.length_append, hN', hY']

theorem sepHere_render (sep : Char) (D M Y : Txt)
    (hsepd : isDigitC sep = false)
    (hDdig : ∀ c ∈ D, isDigitC c = true)
    (hlen : D.length = 1 ∨ D.length = 2)
    (hMdig : ∀ c ∈ M, isDigitC c = true)
    (hlenM : M.length = 1 ∨ M.length = 2)
    (hY : Y.length = 4) (hYdig : ∀ c ∈ Y, isDigitC c = true) :
    sepHere sep none (D ++ sep :: (M ++ sep :: Y)) =
      some (D ++ sep :: (M ++ sep :: Y)).length := by
  have hr : leadCount isDigitC (D ++ sep :: (M ++ sep :: Y)) = D.length := by
    rw [leadCount_append_all isDigitC D _ hDdig,
      leadCount_cons_false isDigitC sep _ hsepd]
    omega
  have hr2 : leadCount isDigitC (M ++ sep :: Y) = M.length := by
    rw [leadCount_append_all isDigitC M _ hMdig,
      leadCount_cons_false isDigitC sep _ hsepd]
    omega
  have hy4 : leadCount isDigitC Y = 4 := by
    rw [leadCount_all isDigitC _ hYdig]
    exact hY
  unfold sepHere
  rw [if_neg (by decide)]
  dsimp only
  rw [hr]
  rw [if_neg (not_not_intro hlen)]
  rw [List.drop_left]
  dsimp only
  rw [if_neg (not_not_intro rfl)]
  rw [hr2]
  rw [if_neg (not_not_intro hlenM)]
  rw [List.drop_left]
  dsimp only
  rw [if_neg (not_not_intro rfl)]
  rw [hy4]
  rw [if_pos ⟨rfl, by
    rw [show (Y.drop 4 : Txt) = Y.drop Y.length from by rw [hY]]
    rw [List.drop_length]
    rfl⟩]
  congr 1
  simp [List.length_append, hY]
  omega

theorem leadCount_ne_zero_mem (p : Char → Bool) (l : Txt)
    (h : leadCount p l ≠ 0) : ∃ c ∈ l, p c = true := by
  cases l with
  | nil => exact absurd rfl h
  | cons c t =>
    by_cases hp : p c = true
    · exact ⟨c, List.mem_cons_self _ _, hp⟩
    · rw [leadCount_cons_false p c t (by simpa using hp)] at h
      exact absurd rfl h

theorem p1Here_some_space (prev : Option Char) (l : Txt) (n : Nat)
    (h : p1Here prev l = some n) : ∃ c ∈ l, isSpaceC c = true := by
  unfold p1Here at h
  dsimp only at h
  split at h
  case isTrue => cases h
  case isFalse =>
    split at h
    case isTrue => cases h
    case isFalse =>
      split at h
      case isTrue => cases h
      case isFalse hw =>
        obtain ⟨c, hc, hsp⟩ := leadCount_ne_zero_mem isSpaceC _ hw
        exact ⟨c, List.mem_of_mem_drop hc, hsp⟩

theorem p2Here_some_space (prev : Option Char) (l : Txt) (n : Nat)
    (h : p2Here prev l = some n) : ∃ c ∈ l, isSpaceC c = true := by
  unfold p2Here at h
  dsimp only at h
  split at h
  case isTrue => cases h
  case isFalse =>
    split at h
    case isTrue => cases h
    case isFalse =>
      split at h
      case isTrue => cases h
      case isFalse hw =>
        obtain ⟨c, hc, hsp⟩ := leadCount_ne_zero_mem isSpaceC _ hw
        exact ⟨c, List.mem_of_mem_drop hc, hsp⟩

theorem sepHere_some_sep (sep : Char) (prev : Option Char) (l : Txt) (n : Nat)
    (h : sepHere sep prev l = some n) : sep ∈ l := by
  unfold sepHere at h
  dsimp only at h
  split at h
  case isTrue => cases h
  case isFalse =>
    split at h
    case isTrue => cases h
    case isFalse =>
      split at h
      case h_1 => cases h
      case h_2 c1 t2 heq =>
        split at h
        case isTrue => cases h
        case isFalse hc1 =>
          have hc : c1 = sep := not_not.mp hc1
          subst hc
          have hmem : c1 ∈ l.drop (leadCount isDigitC l) := by
            rw [heq]
            exact List.mem_cons_self _ _
          exact List.mem_of_mem_drop hmem

theorem suffix_of_cons (c : Char) (t' t : Txt) (h : t' <:+ t) : t' <:+ (c :: t) := by
  obtain ⟨s, rfl⟩ := h
  exact ⟨c :: s, rfl⟩

theorem suffix_mem (t' l : Txt) (c : Char) (h : t' <:+ l) (hc : c ∈ t') : c ∈ l := by
  obtain ⟨s, rfl⟩ := h
  exact List.mem_append_right s hc

theorem searchRx_none (here : Option Char → Txt → Option Nat) :
    ∀ (l : Txt),
      (∀ (prev : Option Char) (t : Txt), t <:+ l → here prev t = none) →
      ∀ prev, searchRx here prev l = none := by
  intro l
  induction l with
  | nil =>
    intro H prev
    unfold searchRx
    rw [H prev [] ⟨[], rfl⟩]
  | cons c t ih =>
    intro H prev
    unfold searchRx
    rw [H prev (c :: t) ⟨[], rfl⟩]
    exact ih (fun prev' t' ht' => H prev' t' (suffix_of_cons c t' t ht')) (some c)

/-- Characters of a separator-format rendering: digits or the separator. -/
theorem renderSep_chars (sep : Char) (D M Y : Txt)
    (hDdig : ∀ c ∈ D, isDigitC c = true)
    (hMdig : ∀ c ∈ M, isDigitC c = true)
    (hYdig : ∀ c ∈ Y, isDigitC c = true) :
    ∀ c ∈ D ++ sep :: (M ++ sep :: Y), isDigitC c = true ∨ c = sep := by
  intro c hc
  rcases List.mem_append.mp hc with hc | hc
  · exact Or.inl (hDdig c hc)
  · rcases List.mem_cons.mp hc with rfl | hc
    · exact Or.inr rfl
    · rcases List.mem_append.mp hc with hc | hc
      · exact Or.inl (hMdig c hc)
      · rcases List.mem_cons.mp hc with rfl | hc
        · exact Or.inr rfl
        · exact Or.inl (hYdig c hc)

theorem searchRx_p1_none_of_no_space (l : Txt)
    (h : ∀ c ∈ l, isSpaceC c = false) (prev : Option Char) :
    searchRx p1Here prev l = none := by
  apply searchRx_none
  intro prev' t' ht'
  cases hp : p1Here prev' t' with
  | none => rfl
  | some n =>
    obtain ⟨c, hc, hsp⟩ := p1Here_some_space prev' t' n hp
    rw [h c (suffix_mem t' l c ht' hc)] at hsp
    cases hsp

theorem searchRx_p2_none_of_no_space (l : Txt)
    (h : ∀ c ∈ l, isSpaceC c = false) (prev : Option Char) :
    searchRx p2Here prev l = none := by
  apply searchRx_none
  intro prev' t' ht'
  cases hp : p2Here prev' t' with
  | none => rfl
  | some n =>
    obtain ⟨c, hc, hsp⟩ := p2Here_some_space prev' t' n hp
    rw [h c (suffix_mem t' l c ht' hc)] at hsp
    cases hsp

theorem searchRx_sep_none_of_no_sep (sep : Char) (l : Txt)
    (h : sep ∉ l) (prev : Option Char) :
    searchRx (sepHere sep) prev l = none := by
  apply searchRx_none
  intro prev' t' ht'
  cases hp : sepHere sep prev' t' with
  | none => rfl
  | some n =>
    exact absurd (suffix_mem t' l sep ht' (sepHere_some_sep sep prev' t' n hp)) h

theorem daysInMonth_le_31 (y m : Nat) : daysInMonth y m ≤ 31 := by
  unfold daysInMonth
  split <;> try omega
  split <;> omega

theorem monthFullName_facts (m : Nat) (h1 : 1 ≤ m) (h2 : m ≤ 12) :
    monthFullName m ≠ [] ∧ (∀ c ∈ monthFullName m, isAlphaC c = true) ∧
    lookupMonth fullMonthsLower (lowerL (monthFullName m)) = some m := by
  interval_cases m <;> refine ⟨by decide, by decide, by decide⟩

theorem monthAbbrevName_facts (m : Nat) (h1 : 1 ≤ m) (h2 : m ≤ 12) :
    (monthAbbrevName m).length = 3 ∧ (∀ c ∈ monthAbbrevName m, isAlphaC c = true) ∧
    lookupMonth abbrevMonthsLower (lowerL (monthAbbrevName m)) = some m := by
  interval_cases m <;> refine ⟨by decide, by decide, by decide⟩

theorem monthAbbrev_full_lookup (m : Nat) (h1 : 1 ≤ m) (h2 : m ≤ 12) (h5 : m ≠ 5) :
    lookupMonth fullMonthsLower (lowerL (monthAbbrevName m)) = none := by
  interval_cases m <;> first | (exact absurd rfl h5) | decide

theorem getLast?_render (D N Y : Txt) (x1 x2 : Char) (hY : Y ≠ []) :
    (D ++ x1 :: (N ++ x2 :: Y)).getLast? = Y.getLast? := by
  rw [getLast?_append_right _ _ (by simp)]
  rw [show (x1 :: (N ++ x2 :: Y) : Txt) = (x1 :: N) ++ (x2 :: Y) from by simp]
  rw [getLast?_append_right _ _ (by simp)]
  rw [show (x2 :: Y : Txt) = [x2] ++ Y from rfl]
  rw [getLast?_append_right _ _ hY]

/-- Stripping is a no-op on a rendered date (it begins and ends with a
digit). -/
theorem stripChars_render (D mid Y : Txt) (x1 : Char)
    (hD : D ≠ []) (hDdig : ∀ c ∈ D, isDigitC c = true)
    (hY : Y ≠ []) (hYdig : ∀ c ∈ Y, isDigitC c = true)
    (hshape : ∃ N x2, mid = N ++ x2 :: Y) :
    stripChars (D ++ x1 :: mid) = D ++ x1 :: mid := by
  obtain ⟨N, x2, rfl⟩ := hshape
  apply stripChars_eq_self
  · intro c hc
    obtain ⟨dc, D', rfl⟩ : ∃ dc D', D = dc :: D' := by
      cases D with
      | nil => exact absurd rfl hD
      | cons a b => exact ⟨a, b, rfl⟩
    rw [show ((dc :: D') ++ x1 :: (N ++ x2 :: Y) : Txt)
        = dc :: (D' ++ x1 :: (N ++ x2 :: Y)) from rfl] at hc
    injection hc with e
    rw [← e]
    exact digit_not_space dc (hDdig dc (List.mem_cons_self _ _))
  · intro c hc
    rw [getLast?_render D N Y x1 x2 hY] at hc
    have hcY : c ∈ Y := by
      obtain ⟨hne, hg⟩ : Y ≠ [] ∧ Y.getLast? = some c := ⟨hY, hc⟩
      rw [List.getLast?_eq_getLast Y hne] at hg
      injection hg with e
      rw [← e]
      exact List.getLast_mem hne
    exact digit_not_space c (hYdig c hcY)

theorem tryFormats_cons_eq (f : FmtId) (fs : List FmtId) (t g : Txt)
    (ymd : Nat × Nat × Nat)
    (hs : fmtSearch f t = some g) (hp : fmtParse f g = some ymd) :
    tryFormats (f :: fs) t = some (canonicalDate ymd.1 ymd.2.1 ymd.2.2) := by
  unfold tryFormats
  rw [hs]
  dsimp only
  rw [hp]

theorem tryFormats_cons_skip (f : FmtId) (fs : List FmtId) (t g : Txt)
    (hs : fmtSearch f t = some g) (hp : fmtParse f g = none) :
    tryFormats (f :: fs) t = tryFormats fs t := by
  show (match fmtSearch f t with
        | none => tryFormats fs t
        | some g =>
          match fmtParse f g with
          | some ymd => some (canonicalDate ymd.1 ymd.2.1 ymd.2.2)
          | none => tryFormats fs t) = tryFormats fs t
  rw [hs]
  dsimp only
  rw [hp]

theorem tryFormats_cons_nomatch (f : FmtId) (fs : List FmtId) (t : Txt)
    (hs : fmtSearch f t = none) :
    tryFormats (f :: fs) t = tryFormats fs t := by
  show (match fmtSearch f t with
        | none => tryFormats fs t
        | some g =>
          match fmtParse f g with
          | some ymd => some (canonicalDate ymd.1 ymd.2.1 ymd.2.2)
          | none => tryFormats fs t) = tryFormats fs t
  rw [hs]

/-- C2: format invariance of the Date Normalizer.  Any calendar-valid
date with a four-digit year, written in any of the four accepted
formats (day and month optionally zero-padded, month spelt as its full
or abbreviated name or numerically), normalizes to the same canonical
`YYYY-MM-DD` value.  In particular `"14 February 2025"`, `"14 Feb 2025"`,
`"14/02/2025"` and `"14-02-2025"` all normalize to `2025-02-14`
(see the witness). -/
theorem C2_format_invariance (pd pm : Bool) (d m y : Nat)
    (h : ValidYmd y m d) (hy : 1000 ≤ y) :
    parse_date_string (renderNameFmt pd d (monthFullName m) y)
        = some (canonicalDate y m d) ∧
    parse_date_string (renderNameFmt pd d (monthAbbrevName m) y)
        = some (canonicalDate y m d) ∧
    parse_date_string (renderSepFmt '/' pd pm d m y)
        = some (canonicalDate y m d) ∧
    parse_date_string (renderSepFmt '-' pd pm d m y)
        = some (canonicalDate y m d) := by
  obtain ⟨hy1, hy9999, hm1, hm12, hd1, hdm⟩ := h
  have hd31 : d ≤ 31 := le_trans hdm (daysInMonth_le_31 y m)
  obtain ⟨hDne, hDdig, hDval, hDlen⟩ := numChars_spec pd d hd1 (by omega)
  have hDlen2 : (numChars pd d).length = 1 ∨ (numChars pd d).length = 2 := by
    rcases hDlen with ⟨h1, _⟩ | h1
    · exact Or.inl h1
    · exact Or.inr h1
  have hday : dayRunOk (numChars pd d).length (parseDigitsNat (numChars pd d)) := by
    rw [hDval]
    rcases hDlen with ⟨hl, _⟩ | hl
    · exact Or.inl ⟨hl, hd1⟩
    · exact Or.inr ⟨hl, hd1, hd31⟩
  obtain ⟨hMne, hMdig, hMval, hMlen⟩ := numChars_spec pm m hm1 (by omega)
  have hMlen2 : (numChars pm m).length = 1 ∨ (numChars pm m).length = 2 := by
    rcases hMlen with ⟨h1, _⟩ | h1
    · exact Or.inl h1
    · exact Or.inr h1
  have hmon : monthRunOk (numChars pm m).length (parseDigitsNat (numChars pm m)) := by
    rw [hMval]
    rcases hMlen with ⟨hl, _⟩ | hl
    · exact Or.inl ⟨hl, hm1⟩
    · exact Or.inr ⟨hl, hm1, hm12⟩
  have hYlen : (decDigits y).length = 4 := decDigits_length_year y hy hy9999
  have hYdig := decDigits_all_digit_year y hy hy9999
  have hYval : parseDigitsNat (decDigits y) = y := parseDigits_decDigits_year y hy hy9999
  have hYne : decDigits y ≠ [] := by
    intro h0
    rw [h0] at hYlen
    cases hYlen
  refine ⟨?_, ?_, ?_, ?_⟩
  · -- full month name
    obtain ⟨hNne, hNal, hNlook⟩ := monthFullName_facts m hm1 hm12
    show parse_date_string
        (numChars pd d ++ ' ' :: (monthFullName m ++ ' ' :: decDigits y)) = _
    unfold parse_date_string patternList
    rw [stripChars_render _ _ _ _ hDne hDdig hYne hYdig ⟨monthFullName m, ' ', rfl⟩]
    have hsearch : fmtSearch .dBY
        (numChars pd d ++ ' ' :: (monthFullName m ++ ' ' :: decDigits y))
        = some (numChars pd d ++ ' ' :: (monthFullName m ++ ' ' :: decDigits y)) := by
      show searchRx p1Here none _ = _
      rw [searchRx_head p1Here _ _
        (p1Here_render _ _ _ hDdig hDlen2 hNne hNal hYlen hYdig)]
      rw [List.take_length]
    have hparse : fmtParse .dBY
        (numChars pd d ++ ' ' :: (monthFullName m ++ ' ' :: decDigits y))
        = some (y, m, d) := by
      show strptimeName fullMonthsLower _ = _
      rw [strptimeName_render_eq fullMonthsLower _ _ _ hDdig hday hNne hNal hYlen hYdig]
      rw [hNlook]
      dsimp only
      rw [if_pos (by rw [hYval, hDval]; exact ⟨hy1, hy9999, hd1, hdm⟩)]
      rw [hYval, hDval]
    exact tryFormats_cons_eq .dBY _ _ _ (y, m, d) hsearch hparse
  · -- abbreviated month name
    obtain ⟨hN3, hNal, hNlookAb⟩ := monthAbbrevName_facts m hm1 hm12
    have hNne : monthAbbrevName m ≠ [] := by
      intro h0
      rw [h0] at hN3
      cases hN3
    show parse_date_string
        (numChars pd d ++ ' ' :: (monthAbbrevName m ++ ' ' :: decDigits y)) = _
    unfold parse_date_string patternList
    rw [stripChars_render _ _ _ _ hDne hDdig hYne hYdig ⟨monthAbbrevName m, ' ', rfl⟩]
    have hsearch1 : fmtSearch .dBY
        (numChars pd d ++ ' ' :: (monthAbbrevName m ++ ' ' :: decDigits y))
        = some (numChars pd d ++ ' ' :: (monthAbbrevName m ++ ' ' :: decDigits y)) := by
      show searchRx p1Here none _ = _
      rw [searchRx_head p1Here _ _
        (p1Here_render _ _ _ hDdig hDlen2 hNne hNal hYlen hYdig)]
      rw [List.take_length]
    by_cases hm5 : m = 5
    · subst hm5
      have hparse : fmtParse .dBY
          (numChars pd d ++ ' ' :: (monthAbbrevName 5 ++ ' ' :: decDigits y))
          = some (y, 5, d) := by
        show strptimeName fullMonthsLower _ = _
        rw [strptimeName_render_eq fullMonthsLower _ _ _ hDdig hday hNne hNal hYlen hYdig]
        rw [show lookupMonth fullMonthsLower (lowerL (monthAbbrevName 5)) = some 5
          from by decide]
        dsimp only
        rw [if_pos (by rw [hYval, hDval]; exact ⟨hy1, hy9999, hd1, hdm⟩)]
        rw [hYval, hDval]
      exact tryFormats_cons_eq .dBY _ _ _ (y, 5, d) hsearch1 hparse
    · have hparse1 : fmtParse .dBY
          (numChars pd d ++ ' ' :: (monthAbbrevName m ++ ' ' :: decDigits y)) = none := by
        show strptimeName fullMonthsLower _ = _
        rw [strptimeName_render_eq fullMonthsLower _ _ _ hDdig hday hNne hNal hYlen hYdig]
        rw [monthAbbrev_full_lookup m hm1 hm12 hm5]
      rw [tryFormats_cons_skip .dBY _ _ _ hsearch1 hparse1]
      have hsearch2 : fmtSearch .dbY
          (numChars pd d ++ ' ' :: (monthAbbrevName m ++ ' ' :: decDigits y))
          = some (numChars pd d ++ ' ' :: (monthAbbrevName m ++ ' ' :: decDigits y)) := by
        show searchRx p2Here none _ = _
        rw [searchRx_head p2Here _ _
          (p2Here_render _ _ _ hDdig hDlen2 hN3 hNal hYlen hYdig)]
        rw [List.take_length]
      have hparse2 : fmtParse .dbY
          (numChars pd d ++ ' ' :: (monthAbbrevName m ++ ' ' :: decDigits y))
          = some (y, m, d) := by
        show strptimeName abbrevMonthsLower _ = _
        rw [strptimeName_render_eq abbrevMonthsLower _ _ _ hDdig hday hNne hNal hYlen hYdig]
        rw [hNlookAb]
        dsimp only
        rw [if_pos (by rw [hYval, hDval]; exact ⟨hy1, hy9999, hd1, hdm⟩)]
        rw [hYval, hDval]
      exact tryFormats_cons_eq .dbY _ _ _ (y, m, d) hsearch2 hparse2
  · -- slash format
    show parse_date_string
        (numChars pd d ++ '/' :: (numChars pm m ++ '/' :: decDigits y)) = _
    unfold parse_date_string patternList
    rw [stripChars_render _ _ _ _ hDne hDdig hYne hYdig ⟨numChars pm m, '/', rfl⟩]
    have hchars := renderSep_chars '/' (numChars pd d) (numChars pm m) (decDigits y)
      hDdig hMdig hYdig
    have hnos : ∀ c ∈ numChars pd d ++ '/' :: (numChars pm m ++ '/' :: decDigits y),
        isSpaceC c = false := by
      intro c hc
      rcases hchars c hc with hdg | rfl
      · exact digit_not_space c hdg
      · decide
    rw [tryFormats_cons_nomatch .dBY _ _ (searchRx_p1_none_of_no_space _ hnos none)]
    rw [tryFormats_cons_nomatch .dbY _ _ (searchRx_p2_none_of_no_space _ hnos none)]
    have hsearch3 : fmtSearch .dmYslash
        (numChars pd d ++ '/' :: (numChars pm m ++ '/' :: decDigits y))
        = some (numChars pd d ++ '/' :: (numChars pm m ++ '/' :: decDigits y)) := by
      show searchRx (sepHere '/') none _ = _
      rw [searchRx_head (sepHere '/') _ _
        (sepHere_render '/' _ _ _ (by decide) hDdig hDlen2 hMdig hMlen2 hYlen hYdig)]
      rw [List.take_length]
    have hparse3 : fmtParse .dmYslash
        (numChars pd d ++ '/' :: (numChars pm m ++ '/' :: decDigits y))
        = some (y, m, d) := by
      show strptimeSep '/' _ = _
      rw [strptimeSep_render_eq '/' _ _ _ (by decide) hDdig hday hMdig hmon hYlen hYdig]
      rw [if_pos (by rw [hYval, hDval, hMval]; exact ⟨hy1, hy9999, hd1, hdm⟩)]
      rw [hYval, hDval, hMval]
    exact tryFormats_cons_eq .dmYslash _ _ _ (y, m, d) hsearch3 hparse3
  · -- hyphen format
    show parse_date_string
        (numChars pd d ++ '-' :: (numChars pm m ++ '-' :: decDigits y)) = _
    unfold parse_date_string patternList
    rw [stripChars_render _ _ _ _ hDne hDdig hYne hYdig ⟨numChars pm m, '-', rfl⟩]
    have hchars := renderSep_chars '-' (numChars pd d) (numChars pm m) (decDigits y)
      hDdig hMdig hYdig
    have hnos : ∀ c ∈ numChars pd d ++ '-' :: (numChars pm m ++ '-' :: decDigits y),
        isSpaceC c = false := by
      intro c hc
      rcases hchars c hc with hdg | rfl
      · exact digit_not_space c hdg
      · decide
    have hnoslash : '/' ∉ numChars pd d ++ '-' :: (numChars pm m ++ '-' :: decDigits y) := by
      intro hc
      rcases hchars '/' hc with hdg | he
      · exact absurd hdg (by decide)
      · exact absurd he (by decide)
    rw [tryFormats_cons_nomatch .dBY _ _ (searchRx_p1_none_of_no_space _ hnos none)]
    rw [tryFormats_cons_nomatch .dbY _ _ (searchRx_p2_none_of_no_space _ hnos none)]
    rw [tryFormats_cons_nomatch .dmYslash _ _
      (searchRx_sep_none_of_no_sep '/' _ hnoslash none)]
    have hsearch4 : fmtSearch .dmYdash
        (numChars pd d ++ '-' :: (numChars pm m ++ '-' :: decDigits y))
        = some (numChars pd d ++ '-' :: (numChars pm m ++ '-' :: decDigits y)) := by
      show searchRx (sepHere '-') none _ = _
      rw [searchRx_head (sepHere '-') _ _
        (sepHere_render '-' _ _ _ (by decide) hDdig hDlen2 hMdig hMlen2 hYlen hYdig)]
      rw [List.take_length]
    have hparse4 : fmtParse .dmYdash
        (numChars pd d ++ '-' :: (numChars pm m ++ '-' :: decDigits y))
        = some (y, m, d) := by
      show strptimeSep '-' _ = _
      rw [strptimeSep_render_eq '-' _ _ _ (by decide) hDdig hday hMdig hmon hYlen hYdig]
      rw [if_pos (by rw [hYval, hDval, hMval]; exact ⟨hy1, hy9999, hd1, hdm⟩)]
      rw [hYval, hDval, hMval]
    exact tryFormats_cons_eq .dmYdash _ _ _ (y, m, d) hsearch4 hparse4

/-- Witness for C2 at the four spec examples. -/
theorem C2_witness :
    parse_date_string (txt "14 February 2025") = some (txt "2025-02-14") ∧
    parse_date_string (txt "14 Feb 2025") = some (txt "2025-02-14") ∧
    parse_date_string (txt "14/02/2025") = some (txt "2025-02-14") ∧
    parse_date_string (txt "14-02-2025") = some (txt "2025-02-14") := by
  have h := C2_format_invariance true true 14 2 2025 (by decide) (by norm_num)
  rw [show renderNameFmt true 14 (monthFullName 2) 2025 = txt "14 February 2025"
      from by decide,
    show renderNameFmt true 14 (monthAbbrevName 2) 2025 = txt "14 Feb 2025"
      from by decide,
    show renderSepFmt '/' true true 14 2 2025 = txt "14/02/2025" from by decide,
    show renderSepFmt '-' true true 14 2 2025 = txt "14-02-2025" from by decide,
    show canonicalDate 2025 2 14 = txt "2025-02-14" from by decide] at h
  exact h
